import Mathlib

/-!
# big_integer

A shallow embedding of `big_integer.cpp` / `big_integer.h`: an arbitrary-precision
signed integer stored as a vector of 32-bit limbs (least significant first) and a
sign flag.

* `std::vector<uint32_t>` is a `List Nat`; every limb of a well-formed value is
  below `BASE = 2^32`.
* 32-bit and 64-bit machine arithmetic is arithmetic on `Nat` with an explicit
  `% BASE` / `% WORD64` wherever the C++ expression is evaluated in that width.
* A `for (i = 0; i < n; ++i)` loop is a function of the number of iterations
  already executed; a down-counting loop is a recursion on the counter.
* Operations that can hit undefined behaviour (machine division by zero, vector
  index past the end) or that recurse without an a-priori bound return a `Res`.
-/

set_option autoImplicit false

/-- The limb base `2^32`, one past `UINT32_MAX`. -/
def BASE : Nat := 4294967296

/-- The largest `uint32_t`. -/
def UINT32_MAX : Nat := 4294967295

/-- The range of `uint64_t`, `2^64`. -/
def WORD64 : Nat := 18446744073709551616

/-- Outcome of an operation that may leave defined behaviour. -/
inductive Res (α : Type) where
  | val (x : α)
  | div_by_zero
  | out_of_range
  | no_fuel
deriving DecidableEq

/-- Sequencing of outcomes: the first failure is the outcome of the whole. -/
def Res.bind {α β : Type} (r : Res α) (f : α → Res β) : Res β :=
  match r with
  | .val x => f x
  | .div_by_zero => .div_by_zero
  | .out_of_range => .out_of_range
  | .no_fuel => .no_fuel

/-- The struct `big_integer`: `number` holds the limbs, `sign` is true for negatives. -/
structure big_integer where
  number : List Nat
  sign : Bool
deriving DecidableEq

namespace big_integer

/-! ## The operations of `big_integer.cpp` -/

/-- Constant `constants::ZERO`, also the value of the default constructor. -/
def ZERO : big_integer := ⟨[0], false⟩

/-- Constant `constants::ONE`. -/
def ONE : big_integer := ⟨[1], false⟩

/-- Constant `constants::TEN`. -/
def TEN : big_integer := ⟨[10], false⟩

/-- Constructor `big_integer(int a)`. -/
def of_int (a : Int) : big_integer := ⟨[a.natAbs % BASE], decide (a < 0)⟩

/-- Constructor `big_integer(unsigned int a)`. -/
def of_uint (a : Nat) : big_integer := ⟨[a % BASE], false⟩

/-- Constructor `big_integer(unsigned long long a)`. -/
def of_ull (a : Nat) : big_integer :=
  let a := a % WORD64
  let num := a / BASE
  ⟨if num > 0 then [a % BASE, num % BASE] else [a % BASE], false⟩

/-- Method `delete_zero`: pop most-significant zero limbs; an emptied vector becomes
the single limb `0` with the sign cleared. -/
def delete_zero (a : big_integer) : big_integer :=
  let number := a.number.rdropWhile (fun x => x == 0)
  if number.isEmpty then ⟨[0], false⟩ else ⟨number, a.sign⟩

/-- Friend `operator==`. -/
def eq (a b : big_integer) : Bool := a.sign == b.sign && a.number == b.number

/-- Friend `operator!=`. -/
def ne (a b : big_integer) : Bool := !(eq a b)

/-- The limb loop of `operator<`, entered with `i = a.number.size()`. -/
def lt_loop (a b : big_integer) : Nat → Bool
  | 0 => false
  | i + 1 =>
    if a.number.getD i 0 != b.number.getD i 0 then
      (if a.number.getD i 0 < b.number.getD i 0 then !a.sign else a.sign)
    else lt_loop a b i

/-- Friend `operator<`. -/
def lt (a b : big_integer) : Bool :=
  if a.sign != b.sign then a.sign
  else if a.number.length != b.number.length then
    (if a.number.length > b.number.length then a.sign else !a.sign)
  else lt_loop a b a.number.length

/-- Friend `operator>`. -/
def gt (a b : big_integer) : Bool := lt b a

/-- Friend `operator<=`. -/
def le (a b : big_integer) : Bool := !(gt a b)

/-- Friend `operator>=`. -/
def ge (a b : big_integer) : Bool := !(lt a b)

/-- Unary `operator-`. -/
def neg (a : big_integer) : big_integer :=
  if ne a ZERO then { a with sign := !a.sign } else a

/-- The call `number.resize(n)` of `std::vector`. -/
def resize (l : List Nat) (n : Nat) : List Nat :=
  l.take n ++ List.replicate (n - l.length) 0

/-- State (`number`, `carry`) after `i` iterations of the carry loop of `operator+=`. -/
def add_loop (rhs : List Nat) (a_size b_size : Nat) (number0 : List Nat) :
    Nat → List Nat × Bool
  | 0 => (number0, false)
  | i + 1 =>
    let st := add_loop rhs a_size b_size number0 i
    let num := ((if st.2 then 1 else 0) + (if i < a_size then st.1.getD i 0 else 0)
      + (if i < b_size then rhs.getD i 0 else 0)) % WORD64
    (st.1.set i (num % BASE), decide (num > UINT32_MAX))

/-- The same-sign part of `operator+=`: limb-wise addition with carry. -/
def add_core (a rhs : big_integer) : big_integer :=
  let a_size := a.number.length
  let b_size := rhs.number.length
  let sz := max a_size b_size
  let st := add_loop rhs.number a_size b_size (resize a.number sz) sz
  ⟨if st.2 then st.1 ++ [1] else st.1, rhs.sign⟩

/-- State (`number`, `carry`) after `i` iterations of the first borrow loop of
`operator-=`; `a`, `b`, `r` are the `int64_t` locals. -/
def sub_loop1 (rhs : List Nat) (number0 : List Nat) : Nat → List Nat × Nat
  | 0 => (number0, 0)
  | i + 1 =>
    let st := sub_loop1 rhs number0 i
    let a : Int := st.1.getD i 0
    let b : Int := rhs.getD i 0
    let r : Int := a - b
    let carry : Int := st.2
    (st.1.set i ((a - b - carry) % (BASE : Int)).toNat,
      if r ≥ carry then (if r ≥ 0 then 0 else 1) else 1)

/-- State after `k` iterations of the second borrow loop of `operator-=`, which
starts at index `start = rhs.number.size()`. -/
def sub_loop2 (start : Nat) (st0 : List Nat × Nat) : Nat → List Nat × Nat
  | 0 => st0
  | k + 1 =>
    let st := sub_loop2 start st0 k
    let i := start + k
    let r := st.1.getD i 0
    let d := (r + BASE - st.2) % BASE
    (st.1.set i (if 0 ≤ d then d else UINT32_MAX), if r < st.2 then 1 else 0)

/-- The magnitude part of `operator-=`, reached with both signs clear and
`!(*this < rhs)`: the two borrow loops followed by `delete_zero`. -/
def sub_core (a rhs : big_integer) : big_integer :=
  let st1 := sub_loop1 rhs.number a.number rhs.number.length
  let st2 := sub_loop2 rhs.number.length st1 (a.number.length - rhs.number.length)
  delete_zero ⟨st2.1, a.sign⟩

/-- Body of `operator-=` once both signs are clear: if `*this < rhs` the result is
`-(rhs - *this)`, whose inner call goes straight to the borrow loops (the order is
asymmetric, see `sub_unfold`). -/
def sub_nn (a rhs : big_integer) : big_integer :=
  if lt a rhs then neg (sub_core rhs a) else sub_core a rhs

/-- Operators `operator+=` / `operator+`. With differing signs it delegates to `operator-` on
two values whose signs are clear. -/
def add (a rhs : big_integer) : big_integer :=
  if a.sign != rhs.sign then
    (if a.sign then sub_nn rhs (neg a) else sub_nn a (neg rhs))
  else add_core a rhs

/-- Operators `operator-=` / `operator-`. The delegated calls of the sign dispatch are
resolved to the branch they take (see `sub_unfold` for the source-shaped equation). -/
def sub (a rhs : big_integer) : big_integer :=
  if a.sign && rhs.sign then sub_nn (neg rhs) (neg a)
  else if a.sign != rhs.sign then
    (if a.sign then neg (add_core (neg a) rhs) else add_core (neg rhs) a)
  else sub_nn a rhs

/-- Operator `operator++` (both forms leave `*this + 1` in the receiver). -/
def inc (a : big_integer) : big_integer := add a ONE

/-- Operator `operator--` (both forms leave `*this - 1` in the receiver). -/
def dec (a : big_integer) : big_integer := sub a ONE

/-- State (`cur`, `carry`) after `s` iterations of the inner loop of `operator*=`
for the outer index `i`, whose limb is `ai = number[i]`. -/
def mul_inner (ai : Nat) (rhs : List Nat) (i : Nat) (cur0 : List Nat) : Nat → List Nat × Nat
  | 0 => (cur0, 0)
  | s + 1 =>
    let st := mul_inner ai rhs i cur0 s
    let num := (ai * rhs.getD s 0 + st.1.getD (i + s) 0 + st.2) % WORD64
    (st.1.set (i + s) (num % BASE), num / BASE)

/-- The accumulator `cur` after `i` iterations of the outer loop of `operator*=`. -/
def mul_outer (number rhs : List Nat) : Nat → List Nat
  | 0 => List.replicate (number.length + rhs.length) 0
  | i + 1 =>
    let cur := mul_outer number rhs i
    let st := mul_inner (number.getD i 0) rhs i cur rhs.length
    st.1.set (i + rhs.length) ((st.1.getD (i + rhs.length) 0 + st.2 % BASE) % BASE)

/-- The exact sum formed by `cur[i + b_size] += static_cast<uint32_t>(carry)` in
outer iteration `i`, before it is truncated to 32 bits. -/
def mul_store (number rhs : List Nat) (i : Nat) : Nat :=
  let st := mul_inner (number.getD i 0) rhs i (mul_outer number rhs i) rhs.length
  st.1.getD (i + rhs.length) 0 + st.2 % BASE

/-- Operators `operator*=` / `operator*`. -/
def mul (a rhs : big_integer) : big_integer :=
  if eq a ZERO || eq rhs ZERO then of_int 0
  else delete_zero ⟨mul_outer a.number rhs.number a.number.length, xor a.sign rhs.sign⟩

/-- The loop of `operator<<=` after `k` iterations; iteration `k` writes index
`shift + 1 + k`. -/
def shl_loop (number : List Nat) (shift inner : Nat) (res0 : List Nat) : Nat → List Nat
  | 0 => res0
  | k + 1 =>
    let res := shl_loop number shift inner res0 k
    let i := shift + 1 + k
    let x := if i - shift < number.length
      then (number.getD (i - shift) 0 * 2 ^ inner) % WORD64 else 0
    let y := if i - shift - 1 < number.length
      then number.getD (i - shift - 1) 0 / 2 ^ (32 - inner) else 0
    res.set i (((x + y) % WORD64) % BASE)

/-- Operators `operator<<=` / `operator<<`; the shift amount is used as an unsigned 32-bit value. -/
def shl (a : big_integer) (rhs : Nat) : big_integer :=
  if rhs = 0 then a
  else
    let shift := rhs / 32
    let inner := rhs % 32
    let sz := a.number.length + shift + 1
    let res0 := (List.replicate sz 0).set shift
      (((a.number.getD 0 0 * 2 ^ inner) % WORD64) % BASE)
    delete_zero ⟨shl_loop a.number shift inner res0 (sz - (shift + 1)), a.sign⟩

/-- The loop of `operator>>=` after `i` iterations. -/
def shr_loop (number : List Nat) (shift inner : Nat) (res0 : List Nat) : Nat → List Nat
  | 0 => res0
  | i + 1 =>
    let res := shr_loop number shift inner res0 i
    let x := if i + shift < number.length
      then number.getD (i + shift) 0 / 2 ^ inner else 0
    let y := if i + shift + 1 < number.length
      then (number.getD (i + shift + 1) 0 * 2 ^ (32 - inner)) % WORD64 else 0
    res.set i (((x + y) % WORD64) % BASE)

/-- Operators `operator>>=` / `operator>>`. -/
def shr (a : big_integer) (rhs : Nat) : big_integer :=
  if rhs = 0 then a
  else
    let shift := rhs / 32
    let inner := rhs % 32
    let sz := if shift < a.number.length then a.number.length - shift else 0
    let tmp_sign := a.sign
    let t := delete_zero ⟨shr_loop a.number shift inner (List.replicate sz 0) sz, false⟩
    let t := if tmp_sign then inc t else t
    { t with sign := tmp_sign }

/-- Method `is_negate(sz)`: rewrite the receiver as `sz` limbs of two's complement.
Both loops index only positions that exist (`i < number.size()`, `push_back`). -/
def is_negate (a : big_integer) (sz : Nat) : big_integer :=
  if a.sign then
    let t := inc a
    let inverted := t.number.map (fun x => UINT32_MAX - x)
    ⟨inverted ++ List.replicate (sz - t.number.length) (if t.sign then UINT32_MAX else 0),
      t.sign⟩
  else
    ⟨a.number ++ List.replicate sz (if a.sign then UINT32_MAX else 0), a.sign⟩

/-- The limb-wise loop of `binary` after `i` iterations; an index past the end of
either vector is `out_of_range`. -/
def binary_loop (function : Nat → Nat → Nat) (b : List Nat) (number0 : List Nat) :
    Nat → Res (List Nat)
  | 0 => .val number0
  | i + 1 =>
    (binary_loop function b number0 i).bind fun number =>
      if i < number.length ∧ i < b.length then
        .val (number.set i (function (number.getD i 0) (b.getD i 0)))
      else .out_of_range

/-- The inversion loop of `binary` (run when the result sign is set) after `i`
iterations; an index past the end of the vector is `out_of_range`. -/
def invert_loop (number0 : List Nat) : Nat → Res (List Nat)
  | 0 => .val number0
  | i + 1 =>
    (invert_loop number0 i).bind fun number =>
      if i < number.length then .val (number.set i (UINT32_MAX - number.getD i 0))
      else .out_of_range

/-- Function `binary_::and_`. -/
def and_ (a b : Nat) : Nat := a &&& b

/-- Function `binary_::or_`. -/
def or_ (a b : Nat) : Nat := a ||| b

/-- Function `binary_::xor_`. -/
def xor_ (a b : Nat) : Nat := a ^^^ b

/-- Method `binary(b, function)`, the engine of `&=`, `|=`, `^=`. -/
def binary (a b : big_integer) (function : Nat → Nat → Nat) : Res big_integer :=
  let sz := max a.number.length b.number.length
  let a1 := is_negate a sz
  let b1 := is_negate b sz
  let sign := decide (function a1.sign.toNat b1.sign.toNat ≠ 0)
  (binary_loop function b1.number a1.number sz).bind fun number =>
    let t := delete_zero ⟨number, sign⟩
    if t.sign then
      (invert_loop t.number sz).bind fun number => .val (dec ⟨number, t.sign⟩)
    else .val t

/-- Operators `operator&=` / `operator&`. -/
def band (a b : big_integer) : Res big_integer := binary a b and_

/-- Operators `operator|=` / `operator|`. -/
def bor (a b : big_integer) : Res big_integer := binary a b or_

/-- Operators `operator^=` / `operator^`. -/
def bxor (a b : big_integer) : Res big_integer := binary a b xor_

/-- Unary `operator~`. -/
def bnot (a : big_integer) : big_integer := neg (add a ONE)

/-- The loop of `divide_long_short`, entered with `i = number.size()` and
`carry = 0`; returns the limbs and the final `carry`. -/
def divide_loop (short_num : Nat) : Nat → List Nat → Nat → Res (List Nat × Nat)
  | 0, number, carry => .val (number, carry)
  | i + 1, number, carry =>
    if short_num = 0 then .div_by_zero
    else
      let tmp := (carry * BASE) % WORD64 + number.getD i 0
      divide_loop short_num i (number.set i ((tmp / short_num) % BASE)) (tmp % short_num % BASE)

/-- Method `divide_long_short(short_num)`: the receiver becomes the quotient, the
returned value is the remainder (built by `big_integer(unsigned int)`). -/
def divide_long_short (a : big_integer) (short_num : Nat) : Res (big_integer × big_integer) :=
  (divide_loop short_num a.number.length a.number 0).bind fun st =>
    .val (delete_zero ⟨st.1, a.sign⟩, of_uint st.2)

/-- The digit loop of `div_mod` (long division). `n` counts the iterations still
allowed by `i != delta`; the state is `*this`, `current` and `i`; `j = delta - 1 - i`. -/
def long_loop (bi : big_integer) (km delta : Nat) :
    Nat → Nat → big_integer → List Nat → Res (big_integer × List Nat × Nat)
  | 0, i, this, current => .val (this, current, i)
  | n + 1, i, this, current =>
    if eq this (of_int 0) then .val (this, current, i)
    else
      let j := delta - 1 - i
      let dif := shl bi ((32 * ((j + 1) % BASE)) % BASE)
      let fire := ge this dif
      let current := if fire then current ++ [1] else current
      let this := if fire then sub this dif else this
      let tmp := (if km - i < this.number.length
          then (this.number.getD (km - i) 0 * BASE) % WORD64 else 0)
        + (if km - i - 1 < this.number.length then this.number.getD (km - i - 1) 0 else 0)
      if tmp = 0 then long_loop bi km delta n (i + 1) this (current ++ [0])
      else if bi.number.getLastD 0 = 0 then .div_by_zero
      else
        let quotient := tmp / bi.number.getLastD 0
        let qt := of_ull (if quotient > UINT32_MAX then UINT32_MAX else quotient % BASE)
        let dif := shl (mul qt bi) ((32 * (j % BASE)) % BASE)
        let low := lt this dif
        let qt := if low then dec qt else qt
        let dif := if low then sub dif (shl bi ((32 * (j % BASE)) % BASE)) else dif
        long_loop bi km delta n (i + 1) (sub this dif) (current ++ [qt.number.headD 0])

/-- Method `div_mod(rhs)`: returns the receiver after the call (the quotient) and the
remainder. `fuel` bounds the depth of the calls `div_mod(-rhs)` and `*this / f`. -/
def div_mod : Nat → big_integer → big_integer → Res (big_integer × big_integer)
  | 0, _, _ => .no_fuel
  | fuel + 1, a, rhs =>
    if eq a ZERO || (lt a rhs && !a.sign) || (gt a rhs && a.sign) then
      .val (of_int 0, a)
    else if a.sign != rhs.sign then
      let s := a.sign
      (div_mod fuel a (neg rhs)).bind fun bi =>
        .val (neg bi.1, if s && ne bi.2 ZERO then { bi.2 with sign := true } else bi.2)
    else if rhs.number.length = 1 then
      divide_long_short { a with sign := false } (rhs.number.headD 0)
    else
      let rem_sign := a.sign && rhs.sign
      let bi : big_integer := { rhs with sign := false }
      let denom := (bi.number.getLastD 0 + 1) % BASE
      if denom = 0 then .div_by_zero
      else
        let f := (BASE / denom) % BASE
        let this := mul { a with sign := false } (of_uint f)
        let bi := mul bi (of_uint f)
        let km := this.number.length - 1
        let delta := this.number.length - bi.number.length
        (long_loop bi km delta delta 0 this []).bind fun st =>
          (div_mod fuel st.1 (of_uint f)).bind fun qr =>
            let mod : big_integer := { qr.1 with sign := rem_sign }
            let current := st.2.1 ++ List.replicate (delta - st.2.2) 0
            .val (delete_zero ⟨current.reverse, st.1.sign⟩, mod)

/-- Operators `operator/=` / `operator/`; `fuel` is the budget of `div_mod`. -/
def div (fuel : Nat) (a rhs : big_integer) : Res big_integer :=
  (div_mod fuel a rhs).bind fun p => .val p.1

/-- Operators `operator%=` / `operator%`; `fuel` is the budget of `div_mod`. -/
def mod (fuel : Nat) (a rhs : big_integer) : Res big_integer :=
  (div_mod fuel a rhs).bind fun p => .val p.2

/-- The digit loop of the string constructor over the characters not yet read;
`none` stands for the exception `std::invalid_argument`. -/
def from_string_loop : List Char → big_integer → Option big_integer
  | [], this => some this
  | c :: cs, this =>
    if !c.isDigit then none
    else from_string_loop cs (add (mul this TEN) (of_int ((c.toNat : Int) - 48)))

/-- Constructor `big_integer(std::string const&)`; `none` stands for the exception
`std::invalid_argument`. -/
def from_string (str : String) : Option big_integer :=
  match str.data with
  | [] => none
  | c0 :: tail =>
    if (c0 == '-' || c0 == '+') && tail.isEmpty then none
    else
      let after_sign := if c0 == '-' || c0 == '+' then tail else c0 :: tail
      let rest := after_sign.dropWhile (fun c => c == '0')
      if rest.isEmpty then some ZERO
      else (from_string_loop rest ZERO).bind fun this => some { this with sign := (c0 == '-') }

/-- The `while (copy != 0)` loop of `to_string`; `n` bounds the number of tests of the
loop condition, `fuel` is passed to `%` and `/=`. -/
def to_string_loop (fuel : Nat) : Nat → big_integer → List Char → Res (List Char)
  | 0, _, _ => .no_fuel
  | n + 1, copy, str =>
    if ne copy (of_int 0) then
      (mod fuel copy TEN).bind fun m =>
        let digit := m.number.headD 0
        (div fuel copy TEN).bind fun q =>
          to_string_loop fuel n q (str ++ [Char.ofNat ((digit + 48) % 256)])
    else .val str

/-- Friend `to_string`. -/
def to_string (fuel : Nat) (a : big_integer) : Res String :=
  if eq a ZERO then .val "0"
  else
    (to_string_loop fuel fuel a []).bind fun str =>
      .val (String.mk (if a.sign then str ++ ['-'] else str).reverse)

/-! ## Specification vocabulary -/

/-- The magnitude denoted by a limb vector: base `BASE`, least significant limb first. -/
def mag : List Nat → Nat
  | [] => 0
  | x :: xs => x + BASE * mag xs

/-- The integer denoted by a `big_integer`: sign and magnitude. -/
def value (a : big_integer) : Int :=
  if a.sign then -(mag a.number : Int) else (mag a.number : Int)

/-- The representation invariant: every limb fits 32 bits, the vector is non-empty,
the most significant limb is non-zero unless the vector is the single limb `0`, and
zero is never flagged negative. -/
def canonical (a : big_integer) : Prop :=
  (∀ x ∈ a.number, x < BASE) ∧ a.number ≠ [] ∧
    (a.number.getLast? = some 0 → a.number = [0]) ∧ (a.number = [0] → a.sign = false)

instance canonical_decidable (a : big_integer) : Decidable (canonical a) := by
  unfold canonical; infer_instance

/-- The borrow invariant shared by both loops of `operator-=`. -/
def sub_inv (a b : List Nat) (n : Nat) (st : List Nat × Nat) : Prop :=
  st.1.length = a.length ∧ (∀ k, n ≤ k → st.1.getD k 0 = a.getD k 0) ∧
    mag (st.1.take n) + mag (b.take n) = mag (a.take n) + BASE ^ n * st.2 ∧
    st.2 ≤ 1 ∧ (∀ y ∈ st.1, y < BASE)

/-- The characters of a decimal string after its optional leading sign. -/
def digits_part : List Char → List Char
  | [] => []
  | c :: cs => if c = '+' ∨ c = '-' then cs else c :: cs

/-- A valid decimal string: an optional leading `+` or `-`, then one or more decimal
digits. -/
def valid_decimal (s : String) : Prop :=
  digits_part s.data ≠ [] ∧ ∀ c ∈ digits_part s.data, c.isDigit = true

instance valid_decimal_decidable (s : String) : Decidable (valid_decimal s) := by
  unfold valid_decimal; infer_instance

/-- The canonical text of a valid decimal string, following the specification: drop a
leading `+`, drop leading zeros keeping one digit, and render an all-zero digit run
as `0` without a sign. -/
def canonical_text (s : String) : String :=
  let rest := (digits_part s.data).dropWhile (fun c => c == '0')
  if rest.isEmpty then "0"
  else if s.data.head? = some '-' then String.mk ('-' :: rest) else String.mk rest

/-- The number written by a run of decimal digit characters read after the value
`acc` has been accumulated. -/
def decimal_value (ds : List Char) (acc : Nat) : Nat :=
  ds.foldl (fun n c => n * 10 + (c.toNat - 48)) acc

/-! ## Properties -/

theorem BASE_pos : 0 < BASE := by decide

@[simp] theorem mag_nil : mag [] = 0 := rfl

@[simp] theorem mag_cons (x : Nat) (xs : List Nat) : mag (x :: xs) = x + BASE * mag xs := rfl

theorem mag_append (l1 l2 : List Nat) : mag (l1 ++ l2) = mag l1 + BASE ^ l1.length * mag l2 := by
  induction l1 with
  | nil => simp
  | cons x xs ih => simp only [List.cons_append, mag_cons, ih, List.length_cons, pow_succ]; ring

theorem mag_replicate_zero (n : Nat) : mag (List.replicate n 0) = 0 := by
  induction n with
  | zero => rfl
  | succ n ih => simp [List.replicate_succ, ih]

theorem mag_lt_pow (l : List Nat) (h : ∀ x ∈ l, x < BASE) : mag l < BASE ^ l.length := by
  induction l with
  | nil => simp
  | cons x xs ih =>
    have hx : x < BASE := h x (List.mem_cons_self _ _)
    have hxs := ih (fun y hy => h y (List.mem_cons_of_mem _ hy))
    simp only [mag_cons, List.length_cons, pow_succ]
    nlinarith

theorem mag_take_succ (l : List Nat) (i : Nat) :
    mag (l.take (i + 1)) = mag (l.take i) + BASE ^ i * l.getD i 0 := by
  induction l generalizing i with
  | nil => simp
  | cons x xs ih =>
    cases i with
    | zero => simp
    | succ k => simp only [List.take_succ_cons, mag_cons, ih k, List.getD_cons_succ, pow_succ]; ring

theorem mag_set (l : List Nat) (i x : Nat) (h : i < l.length) :
    mag (l.set i x) + BASE ^ i * l.getD i 0 = mag l + BASE ^ i * x := by
  induction l generalizing i with
  | nil => simp at h
  | cons y ys ih =>
    cases i with
    | zero => simp; ring
    | succ k =>
      have := ih k (by simpa using h)
      simp only [List.set_cons_succ, mag_cons, List.getD_cons_succ, pow_succ]
      nlinarith

theorem mag_take_le (l : List Nat) (i : Nat) (h : l.length ≤ i) : mag (l.take i) = mag l := by
  rw [List.take_of_length_le h]

theorem BASE_pow_pos (n : Nat) : 0 < BASE ^ n := Nat.pow_pos BASE_pos

theorem mag_concat (l : List Nat) (t : Nat) : mag (l ++ [t]) = mag l + BASE ^ l.length * t := by
  rw [mag_append]; simp

theorem strip_concat (l : List Nat) (t : Nat) :
    (l ++ [t]).rdropWhile (fun x => x == 0) =
      if t = 0 then l.rdropWhile (fun x => x == 0) else l ++ [t] := by
  rw [List.rdropWhile_concat]; simp

theorem mag_strip (l : List Nat) : mag (l.rdropWhile (fun x => x == 0)) = mag l := by
  induction l using List.reverseRecOn with
  | nil => simp
  | append_singleton l t ih =>
    rw [strip_concat]
    split
    · next h => subst h; rw [ih, mag_concat]; simp
    · rfl

theorem strip_eq_nil_iff (l : List Nat) : l.rdropWhile (fun x => x == 0) = [] ↔ mag l = 0 := by
  induction l using List.reverseRecOn with
  | nil => simp
  | append_singleton l t ih =>
    rw [strip_concat, mag_concat]
    have hp := BASE_pow_pos l.length
    split
    · next h => subst h; simpa using ih
    · next h =>
      constructor
      · intro h'; simp at h'
      · intro h'
        have : BASE ^ l.length * t = 0 := by omega
        rcases Nat.mul_eq_zero.mp this with h1 | h1
        · omega
        · exact absurd h1 h

theorem strip_bounded (l : List Nat) (hb : ∀ x ∈ l, x < BASE) :
    ∀ x ∈ l.rdropWhile (fun x => x == 0), x < BASE := by
  intro x hx
  exact hb x ((List.rdropWhile_prefix _ l).subset hx)

theorem strip_getLast (l : List Nat) :
    (l.rdropWhile (fun x => x == 0)).getLast? ≠ some 0 := by
  induction l using List.reverseRecOn with
  | nil => simp
  | append_singleton l t ih =>
    rw [strip_concat]
    split
    · exact ih
    · next h => simp [List.getLast?_append, h]

theorem getLast_zero_iff (l : List Nat) (hb : ∀ x ∈ l, x < BASE) (hne : l ≠ []) :
    l.getLast? = some 0 ↔ mag l < BASE ^ (l.length - 1) := by
  rcases List.eq_nil_or_concat l with h | ⟨init, t, h⟩
  · exact absurd h hne
  · rw [List.concat_eq_append] at h
    subst h
    have hi : mag init < BASE ^ init.length :=
      mag_lt_pow init (fun x hx => hb x (List.mem_append_left _ hx))
    have hp := BASE_pow_pos init.length
    rw [mag_concat]
    have hl : (init ++ [t]).getLast? = some t := by simp
    rw [hl]
    simp only [List.length_append, List.length_singleton, Nat.add_sub_cancel, Option.some.injEq]
    constructor
    · intro h; subst h; simpa using hi
    · intro h
      by_contra hc
      have : 1 ≤ t := Nat.one_le_iff_ne_zero.mpr hc
      have : BASE ^ init.length * 1 ≤ BASE ^ init.length * t := Nat.mul_le_mul_left _ this
      omega

theorem canonical_iff (a : big_integer) :
    canonical a ↔ (∀ x ∈ a.number, x < BASE) ∧ a.number ≠ [] ∧
      (mag a.number < BASE ^ (a.number.length - 1) → a.number = [0]) ∧
      (a.number = [0] → a.sign = false) := by
  unfold canonical
  constructor
  · rintro ⟨hb, hne, ht, hs⟩
    exact ⟨hb, hne, fun h => ht ((getLast_zero_iff _ hb hne).mpr h), hs⟩
  · rintro ⟨hb, hne, ht, hs⟩
    exact ⟨hb, hne, fun h => ht ((getLast_zero_iff _ hb hne).mp h), hs⟩

theorem canonical_bounded {a : big_integer} (h : canonical a) : ∀ x ∈ a.number, x < BASE := h.1

theorem canonical_length_pos {a : big_integer} (h : canonical a) : 0 < a.number.length :=
  List.length_pos.mpr h.2.1

theorem mag_eq_zero_of_canonical {a : big_integer} (h : canonical a) (hz : mag a.number = 0) :
    a = ZERO := by
  have h' := (canonical_iff a).mp h
  have hn : a.number = [0] := h'.2.2.1 (by rw [hz]; exact BASE_pow_pos _)
  have hs := h'.2.2.2 hn
  cases a; simp_all [ZERO]

theorem canonical_mag_ge {a : big_integer} (h : canonical a) (hz : a ≠ ZERO) :
    BASE ^ (a.number.length - 1) ≤ mag a.number := by
  have h' := (canonical_iff a).mp h
  by_contra hc
  have hn : a.number = [0] := h'.2.2.1 (by omega)
  have hs := h'.2.2.2 hn
  apply hz
  cases a; simp_all [ZERO]

theorem canonical_mag_pos {a : big_integer} (h : canonical a) (hz : a ≠ ZERO) :
    0 < mag a.number :=
  lt_of_lt_of_le (BASE_pow_pos _) (canonical_mag_ge h hz)

theorem canonical_mag_lt {a : big_integer} (h : canonical a) :
    mag a.number < BASE ^ a.number.length := mag_lt_pow _ h.1

theorem canonical_neg_ne_zero {a : big_integer} (hs : a.sign = true) :
    a ≠ ZERO := by
  intro hz; rw [hz] at hs; simp [ZERO] at hs

theorem value_ZERO : value ZERO = 0 := by simp [value, ZERO, BASE]

theorem canonical_ZERO : canonical ZERO := by decide

theorem value_eq_zero_iff {a : big_integer} (h : canonical a) : value a = 0 ↔ a = ZERO := by
  constructor
  · intro hv
    apply mag_eq_zero_of_canonical h
    unfold value at hv
    split at hv <;> omega
  · intro hz; rw [hz]; exact value_ZERO

theorem mag_inj (l1 l2 : List Nat) (h1 : ∀ x ∈ l1, x < BASE) (h2 : ∀ x ∈ l2, x < BASE)
    (hl : l1.length = l2.length) (hm : mag l1 = mag l2) : l1 = l2 := by
  induction l1 generalizing l2 with
  | nil => cases l2 with
    | nil => rfl
    | cons y ys => simp at hl
  | cons x xs ih =>
    cases l2 with
    | nil => simp at hl
    | cons y ys =>
      have hx : x < BASE := h1 x (List.mem_cons_self _ _)
      have hy : y < BASE := h2 y (List.mem_cons_self _ _)
      simp only [mag_cons] at hm
      have e1 : x = y := by
        have := congrArg (· % BASE) hm
        simp only [Nat.add_mul_mod_self_left] at this
        rwa [Nat.mod_eq_of_lt hx, Nat.mod_eq_of_lt hy] at this
      have e2 : mag xs = mag ys := by
        subst e1
        have : BASE * mag xs = BASE * mag ys := by omega
        exact Nat.eq_of_mul_eq_mul_left BASE_pos this
      rw [e1, ih ys (fun z hz => h1 z (List.mem_cons_of_mem _ hz))
        (fun z hz => h2 z (List.mem_cons_of_mem _ hz)) (by simpa using hl) e2]

theorem canonical_length_unique {a b : big_integer} (ha : canonical a) (hb : canonical b)
    (hm : mag a.number = mag b.number) : a.number.length = b.number.length := by
  by_cases hza : a = ZERO
  · have : mag b.number = 0 := by rw [← hm, hza]; simp [ZERO]
    rw [hza, mag_eq_zero_of_canonical hb this]
  · have hzb : b ≠ ZERO := by
      intro hzb
      have : mag a.number = 0 := by rw [hm, hzb]; simp [ZERO]
      exact hza (mag_eq_zero_of_canonical ha this)
    have la := canonical_mag_ge ha hza
    have lb := canonical_mag_ge hb hzb
    have ua := canonical_mag_lt ha
    have ub := canonical_mag_lt hb
    have pa := canonical_length_pos ha
    have pb := canonical_length_pos hb
    have h1 : BASE ^ (a.number.length - 1) < BASE ^ b.number.length := by omega
    have h2 : BASE ^ (b.number.length - 1) < BASE ^ a.number.length := by omega
    have h1' := (Nat.pow_lt_pow_iff_right (by decide : 1 < BASE)).mp h1
    have h2' := (Nat.pow_lt_pow_iff_right (by decide : 1 < BASE)).mp h2
    omega

theorem canonical_ext {a b : big_integer} (ha : canonical a) (hb : canonical b)
    (hv : value a = value b) : a = b := by
  by_cases hza : a = ZERO
  · have : value b = 0 := by rw [← hv, hza]; exact value_ZERO
    rw [hza, (value_eq_zero_iff hb).mp this]
  · have hzb : b ≠ ZERO := by
      intro hzb
      have : value a = 0 := by rw [hv, hzb]; exact value_ZERO
      exact hza ((value_eq_zero_iff ha).mp this)
    have pa := canonical_mag_pos ha hza
    have pb := canonical_mag_pos hb hzb
    have hsm : a.sign = b.sign ∧ mag a.number = mag b.number := by
      unfold value at hv
      cases hsa : a.sign <;> cases hsb : b.sign <;> simp only [hsa, hsb, if_true, if_false,
        Bool.false_eq_true] at hv
      · exact ⟨rfl, by omega⟩
      · exfalso; omega
      · exfalso; omega
      · exact ⟨rfl, by omega⟩
    have hl := canonical_length_unique ha hb hsm.2
    have hn := mag_inj _ _ ha.1 hb.1 hl hsm.2
    cases a; cases b; simp_all

theorem eq_iff (a b : big_integer) : eq a b = true ↔ a = b := by
  cases a; cases b; simp [eq, and_comm]

theorem eq_false_iff (a b : big_integer) : eq a b = false ↔ a ≠ b := by
  rw [← Bool.not_eq_true, eq_iff]

theorem ne_iff (a b : big_integer) : ne a b = true ↔ a ≠ b := by
  rw [ne, Bool.not_eq_true', eq_false_iff]

theorem mag_delete_zero (a : big_integer) : mag (delete_zero a).number = mag a.number := by
  unfold delete_zero
  simp only
  split
  · next h =>
    have : a.number.rdropWhile (fun x => x == 0) = [] := by simpa using h
    rw [(strip_eq_nil_iff _).mp this]; simp
  · exact mag_strip _

theorem value_delete_zero (a : big_integer) : value (delete_zero a) = value a := by
  have hm := mag_delete_zero a
  unfold value
  rw [hm]
  unfold delete_zero
  simp only
  split
  · next h =>
    have : a.number.rdropWhile (fun x => x == 0) = [] := by simpa using h
    rw [(strip_eq_nil_iff _).mp this]; simp
  · rfl

theorem delete_zero_canonical (a : big_integer) (hb : ∀ x ∈ a.number, x < BASE) :
    canonical (delete_zero a) := by
  unfold delete_zero
  simp only
  split
  · exact canonical_ZERO
  · next h =>
    have hne : a.number.rdropWhile (fun x => x == 0) ≠ [] := by simpa using h
    refine ⟨strip_bounded _ hb, hne, fun hl => absurd hl (strip_getLast _), fun h0 => ?_⟩
    exfalso
    have h1 : a.number.rdropWhile (fun x => x == 0) = [0] := h0
    have := strip_getLast a.number
    rw [h1] at this
    simp at this

theorem mag_take_lt (l : List Nat) (hb : ∀ x ∈ l, x < BASE) (i : Nat) :
    mag (l.take i) < BASE ^ i := by
  have h1 : mag (l.take i) < BASE ^ (l.take i).length :=
    mag_lt_pow _ (fun x hx => hb x (List.mem_of_mem_take hx))
  have h2 : BASE ^ (l.take i).length ≤ BASE ^ i :=
    Nat.pow_le_pow_right BASE_pos (by simp)
  omega

theorem lt_loop_spec (a b : big_integer) (ha : ∀ x ∈ a.number, x < BASE)
    (hb : ∀ x ∈ b.number, x < BASE) (i : Nat) :
    lt_loop a b i =
      if mag (a.number.take i) < mag (b.number.take i) then !a.sign
      else if mag (b.number.take i) < mag (a.number.take i) then a.sign else false := by
  induction i with
  | zero => simp [lt_loop]
  | succ i ih =>
    have hA := mag_take_lt a.number ha i
    have hB := mag_take_lt b.number hb i
    rw [lt_loop, mag_take_succ, mag_take_succ, ih]
    generalize mag (a.number.take i) = A at *
    generalize mag (b.number.take i) = A' at *
    generalize a.number.getD i 0 = x at *
    generalize b.number.getD i 0 = y at *
    generalize BASE ^ i = P at *
    rcases Nat.lt_trichotomy x y with hxy | hxy | hxy
    · have h1 : P * (x + 1) ≤ P * y := Nat.mul_le_mul_left _ hxy
      have h2 : A + P * x < A' + P * y := by rw [Nat.mul_add] at h1; omega
      have hne : (x != y) = true := by simp; omega
      simp [hne, hxy, h2]
    · subst hxy
      simp
    · have h1 : P * (y + 1) ≤ P * x := Nat.mul_le_mul_left _ hxy
      have h2 : A' + P * y < A + P * x := by rw [Nat.mul_add] at h1; omega
      have hne : (x != y) = true := by simp; omega
      have h3 : ¬ x < y := by omega
      have h4 : ¬ (A + P * x < A' + P * y) := by omega
      simp [hne, h3, h2, h4]

theorem canonical_sign_value {a : big_integer} (h : canonical a) :
    (a.sign = true → value a < 0) ∧ (a.sign = false → 0 ≤ value a) := by
  constructor
  · intro hs
    have := canonical_mag_pos h (canonical_neg_ne_zero hs)
    simp [value, hs]; omega
  · intro hs
    simp [value, hs]

theorem sign_iff_value_neg {a : big_integer} (h : canonical a) :
    a.sign = true ↔ value a < 0 := by
  have := canonical_sign_value h
  constructor
  · exact this.1
  · intro hv
    by_contra hc
    have := this.2 (by simpa using hc)
    omega

theorem canonical_longer_mag {a b : big_integer} (ha : canonical a) (hb : canonical b)
    (hl : b.number.length < a.number.length) : mag b.number < mag a.number := by
  have hza : a ≠ ZERO := by
    intro h
    have h1 : ZERO.number.length = 1 := rfl
    have h2 := canonical_length_pos hb
    rw [h] at hl
    omega
  have la := canonical_mag_ge ha hza
  have ub := canonical_mag_lt hb
  have : BASE ^ b.number.length ≤ BASE ^ (a.number.length - 1) :=
    Nat.pow_le_pow_right BASE_pos (by omega)
  omega

theorem lt_spec {a b : big_integer} (ha : canonical a) (hb : canonical b) :
    lt a b = true ↔ value a < value b := by
  have sa := canonical_sign_value ha
  have sb := canonical_sign_value hb
  unfold lt
  by_cases hs : a.sign = b.sign
  · have hs' : (a.sign != b.sign) = false := by simp [hs]
    rw [hs']
    simp only [Bool.false_eq_true, if_false]
    by_cases hl : a.number.length = b.number.length
    · have hl' : (a.number.length != b.number.length) = false := by simp [hl]
      rw [hl']
      simp only [Bool.false_eq_true, if_false]
      rw [lt_loop_spec a b ha.1 hb.1, List.take_of_length_le (le_refl _),
        List.take_of_length_le (le_of_eq hl.symm)]
      unfold value
      rw [← hs]
      cases hsa : a.sign <;> (simp; try omega)
    · have hl' : (a.number.length != b.number.length) = true := by simp [hl]
      rw [hl']
      simp only [if_true]
      unfold value
      rw [← hs]
      rcases Nat.lt_or_gt_of_ne hl with h | h
      · have := canonical_longer_mag hb ha h
        have h' : ¬ (a.number.length > b.number.length) := by omega
        cases hsa : a.sign <;> simp [h'] <;> omega
      · have := canonical_longer_mag ha hb h
        cases hsa : a.sign <;> simp [h] <;> omega
  · have hs' : (a.sign != b.sign) = true := by simp [hs]
    rw [hs']
    simp only [if_true]
    cases hsa : a.sign
    · have hsb : b.sign = true := by
        cases hb' : b.sign
        · rw [hsa, hb'] at hs; exact absurd rfl hs
        · rfl
      have := sa.2 hsa
      have := sb.1 hsb
      simp; omega
    · have hsb : b.sign = false := by
        cases hb' : b.sign
        · rfl
        · rw [hsa, hb'] at hs; exact absurd rfl hs
      have := sa.1 hsa
      have := sb.2 hsb
      simp; omega

theorem lt_loop_asymm (a b : big_integer) (hs : a.sign = b.sign) (i : Nat) :
    lt_loop a b i = true → lt_loop b a i = false := by
  induction i with
  | zero => simp [lt_loop]
  | succ i ih =>
    rw [lt_loop, lt_loop, ← hs]
    generalize a.number.getD i 0 = x at *
    generalize b.number.getD i 0 = y at *
    rcases Nat.lt_trichotomy x y with h | h | h
    · have h1 : (x != y) = true := by simp; omega
      have h2 : (y != x) = true := by simp; omega
      have h' : ¬ (y < x) := by omega
      simp [h1, h2, h, h']
    · subst h
      simpa using ih
    · have h1 : (x != y) = true := by simp; omega
      have h2 : (y != x) = true := by simp; omega
      have h' : ¬ (x < y) := by omega
      simp [h1, h2, h, h']

theorem lt_asymm (a b : big_integer) : lt a b = true → lt b a = false := by
  unfold lt
  by_cases hs : a.sign = b.sign
  · have hs' : (a.sign != b.sign) = false := by simp [hs]
    have hs'' : (b.sign != a.sign) = false := by simp [hs]
    rw [hs', hs'']
    simp only [Bool.false_eq_true, if_false]
    by_cases hl : a.number.length = b.number.length
    · have hl' : (a.number.length != b.number.length) = false := by simp [hl]
      have hl'' : (b.number.length != a.number.length) = false := by simp [hl]
      rw [hl', hl'']
      simp only [Bool.false_eq_true, if_false]
      rw [← hl]
      exact lt_loop_asymm a b hs _
    · have hl' : (a.number.length != b.number.length) = true := by simp [hl]
      have hl'' : (b.number.length != a.number.length) = true := by
        simp; exact fun h => hl h.symm
      rw [hl', hl'']
      simp only [if_true]
      rw [← hs]
      rcases Nat.lt_or_gt_of_ne hl with h | h
      · have h' : ¬ (a.number.length > b.number.length) := by omega
        simp [h, h']
      · have h' : ¬ (b.number.length > a.number.length) := by omega
        simp [h, h']
  · have hs' : (a.sign != b.sign) = true := by simp [hs]
    have hs'' : (b.sign != a.sign) = true := by simp; exact fun h => hs h.symm
    rw [hs', hs'']
    simp only [if_true]
    intro h
    cases hb' : b.sign
    · rfl
    · rw [h, hb'] at hs; exact absurd rfl hs

theorem getD_set_eq (l : List Nat) (i x : Nat) (h : i < l.length) : (l.set i x).getD i 0 = x := by
  simp [h]

theorem getD_set_ne (l : List Nat) (i k x : Nat) (h : i ≠ k) :
    (l.set i x).getD k 0 = l.getD k 0 := by
  simp [h]

theorem take_set_self (l : List Nat) (i x : Nat) : (l.set i x).take i = l.take i := by
  induction l generalizing i with
  | nil => simp
  | cons y ys ih =>
    cases i with
    | zero => simp
    | succ k => simp [ih k]

theorem bounded_set (l : List Nat) (i x : Nat) (hb : ∀ y ∈ l, y < BASE) (hx : x < BASE) :
    ∀ y ∈ l.set i x, y < BASE := by
  intro y hy
  rcases List.mem_or_eq_of_mem_set hy with h | h
  · exact hb y h
  · rw [h]; exact hx

theorem getD_lt_of_bounded (l : List Nat) (hb : ∀ y ∈ l, y < BASE) (i : Nat) :
    l.getD i 0 < BASE := by
  by_cases h : i < l.length
  · rw [List.getD_eq_getElem _ _ h]; exact hb _ (List.getElem_mem _)
  · rw [List.getD_eq_default _ _ (by omega)]; exact BASE_pos

theorem mag_take_set_succ (l : List Nat) (i x : Nat) (h : i < l.length) :
    mag ((l.set i x).take (i + 1)) = mag (l.take i) + BASE ^ i * x := by
  rw [mag_take_succ, take_set_self, getD_set_eq l i x h]

theorem resize_length (l : List Nat) (n : Nat) : (resize l n).length = n := by
  simp [resize]; omega

theorem getD_resize (l : List Nat) (n : Nat) (h : l.length ≤ n) (k : Nat) :
    (resize l n).getD k 0 = l.getD k 0 := by
  unfold resize
  rw [List.take_of_length_le h]
  by_cases hk : k < l.length
  · rw [List.getD_append _ _ _ _ hk]
  · rw [List.getD_append_right _ _ _ _ (by omega), List.getD_eq_default l 0 (by omega)]
    by_cases hk' : k - l.length < n - l.length
    · rw [List.getD_eq_getElem _ _ (by simpa using hk')]; simp
    · rw [List.getD_eq_default _ _ (by simp; omega)]

theorem bounded_resize (l : List Nat) (n : Nat) (hb : ∀ y ∈ l, y < BASE) :
    ∀ y ∈ resize l n, y < BASE := by
  intro y hy
  unfold resize at hy
  rcases List.mem_append.mp hy with h | h
  · exact hb y (List.mem_of_mem_take h)
  · rw [(List.mem_replicate.mp h).2]; exact BASE_pos

theorem add_loop_inv (a rhs : List Nat) (sz : Nat) (ha : ∀ y ∈ a, y < BASE)
    (hr : ∀ y ∈ rhs, y < BASE) (hla : a.length ≤ sz) (i : Nat) (hi : i ≤ sz) :
    let st := add_loop rhs a.length rhs.length (resize a sz) i
    st.1.length = sz ∧ (∀ k, i ≤ k → st.1.getD k 0 = a.getD k 0) ∧
      mag (st.1.take i) + BASE ^ i * st.2.toNat = mag (a.take i) + mag (rhs.take i) ∧
      (∀ y ∈ st.1, y < BASE) := by
  induction i with
  | zero =>
    simp only [add_loop]
    exact ⟨resize_length _ _, fun k _ => getD_resize a sz hla k, by simp,
      bounded_resize a sz ha⟩
  | succ i ih =>
    have ih' := ih (by omega)
    clear ih
    simp only [add_loop]
    rcases hst : add_loop rhs a.length rhs.length (resize a sz) i with ⟨l, cb⟩
    rw [hst] at ih'
    simp only at ih' ⊢
    obtain ⟨h1, h2, h3, h4⟩ := ih'
    have ea : (if i < a.length then l.getD i 0 else 0) = a.getD i 0 := by
      rw [h2 i (le_refl _)]
      split
      · rfl
      · rw [List.getD_eq_default _ _ (by omega)]
    have eb : (if i < rhs.length then rhs.getD i 0 else 0) = rhs.getD i 0 := by
      split
      · rfl
      · rw [List.getD_eq_default _ _ (by omega)]
    rw [ea, eb]
    have hx := getD_lt_of_bounded a ha i
    have hy := getD_lt_of_bounded rhs hr i
    have hB : BASE = 4294967296 := rfl
    have hW : WORD64 = 18446744073709551616 := rfl
    have hM : UINT32_MAX = 4294967295 := rfl
    have hc : (if cb = true then 1 else 0) ≤ 1 := by split <;> omega
    have hc3 : cb.toNat = (if cb = true then 1 else 0) := by
      cases cb <;> rfl
    rw [hc3] at h3
    generalize (if cb = true then 1 else 0) = c at *
    have hnum : (c + a.getD i 0 + rhs.getD i 0) % WORD64 = c + a.getD i 0 + rhs.getD i 0 :=
      Nat.mod_eq_of_lt (by omega)
    rw [hnum]
    refine ⟨by simpa using h1, ?_, ?_, ?_⟩
    · intro k hk
      rw [getD_set_ne _ _ _ _ (by omega)]
      exact h2 k (by omega)
    · rw [mag_take_set_succ _ _ _ (by omega), mag_take_succ a, mag_take_succ rhs]
      have hd : (decide (c + a.getD i 0 + rhs.getD i 0 > UINT32_MAX)).toNat
          = (c + a.getD i 0 + rhs.getD i 0) / BASE := by
        by_cases h : c + a.getD i 0 + rhs.getD i 0 > UINT32_MAX
        · have : (c + a.getD i 0 + rhs.getD i 0) / BASE = 1 := by rw [hB]; rw [hM] at h; omega
          rw [this, decide_eq_true h]; rfl
        · have : (c + a.getD i 0 + rhs.getD i 0) / BASE = 0 := by rw [hB]; rw [hM] at h; omega
          rw [this, decide_eq_false h]; rfl
      rw [hd, pow_succ]
      have hdm : (c + a.getD i 0 + rhs.getD i 0) % BASE
          + BASE * ((c + a.getD i 0 + rhs.getD i 0) / BASE) = c + a.getD i 0 + rhs.getD i 0 :=
        Nat.mod_add_div _ _
      generalize (c + a.getD i 0 + rhs.getD i 0) % BASE = r at *
      generalize (c + a.getD i 0 + rhs.getD i 0) / BASE = q at *
      generalize BASE ^ i = P at *
      have : P * (r + BASE * q) = P * (c + a.getD i 0 + rhs.getD i 0) := by rw [hdm]
      simp only [Nat.mul_add] at this
      rw [Nat.mul_assoc]
      omega
    · exact bounded_set _ _ _ h4 (Nat.mod_lt _ BASE_pos)

theorem sub_step1_arith (x y c : Nat) (hx : x < BASE) (hy : y < BASE) (hc : c ≤ 1) :
    ((((x : Int) - (y : Int) - (c : Int)) % (BASE : Int)).toNat < BASE) ∧
    ((if (x : Int) - (y : Int) ≥ (c : Int) then (if (x : Int) - (y : Int) ≥ 0 then 0 else 1) else 1 : Nat) ≤ 1) ∧
    ((((x : Int) - (y : Int) - (c : Int)) % (BASE : Int)).toNat + y + c = x + BASE *
      (if (x : Int) - (y : Int) ≥ (c : Int) then (if (x : Int) - (y : Int) ≥ 0 then 0 else 1) else 1 : Nat)) := by
  have hB : BASE = 4294967296 := rfl
  rw [hB] at hx hy ⊢
  refine ⟨by omega, by split <;> (try split) <;> omega, ?_⟩
  split
  · split
    · omega
    · omega
  · omega

theorem sub_step2_arith (r c : Nat) (hr : r < BASE) (hc : c ≤ 1) :
    ((if 0 ≤ (r + BASE - c) % BASE then (r + BASE - c) % BASE else UINT32_MAX) < BASE) ∧
    ((if r < c then 1 else 0 : Nat) ≤ 1) ∧
    ((if 0 ≤ (r + BASE - c) % BASE then (r + BASE - c) % BASE else UINT32_MAX) + c =
      r + BASE * (if r < c then 1 else 0 : Nat)) := by
  have hB : BASE = 4294967296 := rfl
  rw [hB] at hr ⊢
  simp only [Nat.zero_le, if_true]
  refine ⟨by omega, by split <;> omega, ?_⟩
  split <;> omega

theorem sub_inv_step (a b : List Nat) (n : Nat) (l : List Nat) (c limb c' : Nat)
    (hn : n < a.length)
    (h : sub_inv a b n (l, c)) (hlimb : limb < BASE) (hc' : c' ≤ 1)
    (harith : limb + b.getD n 0 + c = a.getD n 0 + BASE * c') :
    sub_inv a b (n + 1) (l.set n limb, c') := by
  obtain ⟨h1, h2, h3, h4, h5⟩ := h
  simp only at h1 h2 h3 h4 h5
  refine ⟨by simpa using h1, ?_, ?_, hc', bounded_set _ _ _ h5 hlimb⟩
  · intro k hk
    show (l.set n limb).getD k 0 = a.getD k 0
    rw [getD_set_ne _ _ _ _ (by omega)]
    exact h2 k (by omega)
  · show mag ((l.set n limb).take (n + 1)) + mag (b.take (n + 1))
      = mag (a.take (n + 1)) + BASE ^ (n + 1) * c'
    rw [mag_take_set_succ _ _ _ (by omega), mag_take_succ a, mag_take_succ b, pow_succ]
    generalize BASE ^ n = P at *
    have e : P * (limb + b.getD n 0 + c) = P * (a.getD n 0 + BASE * c') := by rw [harith]
    simp only [Nat.mul_add] at e
    rw [Nat.mul_assoc]
    omega

theorem sub_loop1_inv (a b : List Nat) (ha : ∀ y ∈ a, y < BASE) (hb : ∀ y ∈ b, y < BASE)
    (i : Nat) (hi : i ≤ b.length) (hl : b.length ≤ a.length) :
    sub_inv a b i (sub_loop1 b a i) := by
  induction i with
  | zero =>
    simp only [sub_loop1]
    exact ⟨rfl, fun k _ => rfl, by simp, by simp, ha⟩
  | succ i ih =>
    have ih' := ih (by omega)
    clear ih
    simp only [sub_loop1]
    rcases hst : sub_loop1 b a i with ⟨l, c⟩
    rw [hst] at ih'
    have hli : l.getD i 0 = a.getD i 0 := ih'.2.1 i (le_refl _)
    have hx := getD_lt_of_bounded a ha i
    have hy := getD_lt_of_bounded b hb i
    simp only [hli]
    have ar := sub_step1_arith (a.getD i 0) (b.getD i 0) c hx hy ih'.2.2.2.1
    exact sub_inv_step a b i l c _ _ (by omega) ih' ar.1 ar.2.1 ar.2.2

theorem sub_loop2_inv (a b : List Nat) (ha : ∀ y ∈ a, y < BASE)
    (st0 : List Nat × Nat) (h0 : sub_inv a b b.length st0)
    (k : Nat) (hk : b.length + k ≤ a.length) :
    sub_inv a b (b.length + k) (sub_loop2 b.length st0 k) := by
  induction k with
  | zero => simpa [sub_loop2] using h0
  | succ k ih =>
    have ih' := ih (by omega)
    clear ih
    simp only [sub_loop2]
    rcases hst : sub_loop2 b.length st0 k with ⟨l, c⟩
    rw [hst] at ih'
    have hli : l.getD (b.length + k) 0 = a.getD (b.length + k) 0 := ih'.2.1 _ (le_refl _)
    have hx := getD_lt_of_bounded a ha (b.length + k)
    simp only [hli]
    have ar := sub_step2_arith (a.getD (b.length + k) 0) c hx ih'.2.2.2.1
    have hb0 : b.getD (b.length + k) 0 = 0 := List.getD_eq_default _ _ (by omega)
    rw [← Nat.add_assoc]
    exact sub_inv_step a b (b.length + k) l c _ _ (by omega) ih' ar.1 ar.2.1
      (by rw [hb0]; simpa using ar.2.2)

theorem sub_core_spec (a b : big_integer) (ha : ∀ y ∈ a.number, y < BASE)
    (hb : ∀ y ∈ b.number, y < BASE) (hl : b.number.length ≤ a.number.length)
    (hm : mag b.number ≤ mag a.number) :
    canonical (sub_core a b) ∧ mag (sub_core a b).number + mag b.number = mag a.number ∧
      ((sub_core a b).sign = true → a.sign = true) := by
  have h1 := sub_loop1_inv a.number b.number ha hb b.number.length (le_refl _) hl
  have h2 := sub_loop2_inv a.number b.number ha _ h1 (a.number.length - b.number.length)
    (by omega)
  have e : b.number.length + (a.number.length - b.number.length) = a.number.length := by omega
  rw [e] at h2
  unfold sub_core
  simp only
  rcases hst : sub_loop2 b.number.length (sub_loop1 b.number a.number b.number.length)
    (a.number.length - b.number.length) with ⟨l, c⟩
  rw [hst] at h2
  obtain ⟨g1, g2, g3, g4, g5⟩ := h2
  simp only at g1 g2 g3 g4 g5
  rw [List.take_of_length_le (by omega), List.take_of_length_le hl,
    List.take_of_length_le (le_refl _)] at g3
  have hlt : mag l < BASE ^ a.number.length := by rw [← g1]; exact mag_lt_pow l g5
  have hc0 : c = 0 := by
    rcases Nat.le_one_iff_eq_zero_or_eq_one.mp g4 with h | h
    · exact h
    · subst h; omega
  subst hc0
  refine ⟨delete_zero_canonical _ g5, ?_, ?_⟩
  · rw [mag_delete_zero]; simpa using g3
  · unfold delete_zero
    simp only
    split
    · simp
    · simp

theorem value_of_nonneg {a : big_integer} (h : a.sign = false) : value a = mag a.number := by
  simp [value, h]

theorem value_of_neg {a : big_integer} (h : a.sign = true) : value a = -(mag a.number : Int) := by
  simp [value, h]

theorem neg_spec {a : big_integer} (ha : canonical a) :
    canonical (neg a) ∧ value (neg a) = -value a := by
  unfold neg
  by_cases hz : a = ZERO
  · have : ne a ZERO = false := by rw [ne, (eq_iff a ZERO).mpr hz]; rfl
    rw [this]
    simp only [Bool.false_eq_true, if_false]
    exact ⟨ha, by rw [hz, value_ZERO]; rfl⟩
  · rw [(ne_iff a ZERO).mpr hz]
    simp only [if_true]
    refine ⟨⟨ha.1, ha.2.1, ha.2.2.1, fun h0 => ?_⟩, ?_⟩
    · exfalso
      apply hz
      have h0' : a.number = [0] := h0
      have := ha.2.2.2 h0'
      cases a; simp_all [ZERO]
    · unfold value
      cases a.sign <;> simp

theorem neg_sign {a : big_integer} (hz : a ≠ ZERO) : (neg a).sign = !a.sign := by
  unfold neg
  rw [(ne_iff a ZERO).mpr hz]
  rfl

theorem neg_sign_of_neg {a : big_integer} (hs : a.sign = true) : (neg a).sign = false := by
  rw [neg_sign (canonical_neg_ne_zero hs), hs]; rfl

theorem sub_nn_spec {a b : big_integer} (ha : canonical a) (hb : canonical b)
    (hsa : a.sign = false) (hsb : b.sign = false) :
    canonical (sub_nn a b) ∧ value (sub_nn a b) = value a - value b := by
  have va := value_of_nonneg hsa
  have vb := value_of_nonneg hsb
  unfold sub_nn
  by_cases hlt : lt a b = true
  · rw [hlt]
    simp only [if_true]
    have hv := (lt_spec ha hb).mp hlt
    rw [va, vb] at hv
    have hm : mag a.number < mag b.number := by exact_mod_cast hv
    have hl : a.number.length ≤ b.number.length := by
      by_contra hc
      have := canonical_longer_mag ha hb (by omega)
      omega
    obtain ⟨c1, c2, c3⟩ := sub_core_spec b a hb.1 ha.1 hl (le_of_lt hm)
    have hs : (sub_core b a).sign = false := by
      cases h : (sub_core b a).sign
      · rfl
      · rw [c3 h] at hsb; exact absurd hsb (by simp)
    obtain ⟨n1, n2⟩ := neg_spec c1
    refine ⟨n1, ?_⟩
    rw [n2, value_of_nonneg hs, va, vb]
    omega
  · have hlt' : lt a b = false := by simpa using hlt
    rw [hlt']
    simp only [Bool.false_eq_true, if_false]
    have hv : ¬ (value a < value b) := fun h => hlt ((lt_spec ha hb).mpr h)
    rw [va, vb] at hv
    have hm : mag b.number ≤ mag a.number := by
      by_contra hc
      apply hv
      exact_mod_cast (Nat.lt_of_not_le hc)
    have hl : b.number.length ≤ a.number.length := by
      by_contra hc
      have := canonical_longer_mag hb ha (by omega)
      omega
    obtain ⟨c1, c2, c3⟩ := sub_core_spec a b ha.1 hb.1 hl hm
    have hs : (sub_core a b).sign = false := by
      cases h : (sub_core a b).sign
      · rfl
      · rw [c3 h] at hsa; exact absurd hsa (by simp)
    refine ⟨c1, ?_⟩
    rw [value_of_nonneg hs, va, vb]
    omega

theorem add_core_spec {a b : big_integer} (ha : canonical a) (hb : canonical b) :
    canonical (add_core a b) ∧ mag (add_core a b).number = mag a.number + mag b.number ∧
      (add_core a b).sign = b.sign := by
  have inv := add_loop_inv a.number b.number (max a.number.length b.number.length) ha.1 hb.1
    (le_max_left _ _) (max a.number.length b.number.length) (le_refl _)
  unfold add_core
  simp only at inv ⊢
  rcases hst : add_loop b.number a.number.length b.number.length
    (resize a.number (max a.number.length b.number.length))
    (max a.number.length b.number.length) with ⟨l, c⟩
  rw [hst] at inv
  obtain ⟨g1, _, g3, g4⟩ := inv
  simp only at g1 g3 g4 ⊢
  rw [List.take_of_length_le (by omega), List.take_of_length_le (le_max_left _ _),
    List.take_of_length_le (le_max_right _ _)] at g3
  have pa := canonical_length_pos ha
  have pb := canonical_length_pos hb
  have hp := BASE_pow_pos (max a.number.length b.number.length)
  cases c with
  | true =>
    simp only [if_true, Bool.toNat_true, Nat.mul_one] at g3 ⊢
    have hmag : mag (l ++ [1]) = mag a.number + mag b.number := by
      rw [mag_concat, g1]; omega
    refine ⟨(canonical_iff _).mpr ⟨?_, by simp, ?_, ?_⟩, hmag, trivial⟩
    · intro x hx
      rcases List.mem_append.mp hx with h | h
      · exact g4 x h
      · simp at h; rw [h]; decide
    · intro h
      exfalso
      simp only [List.length_append, List.length_singleton, Nat.add_sub_cancel] at h
      rw [mag_concat, g1] at h
      omega
    · intro h
      exfalso
      have h' : l ++ [1] = [0] := h
      have : mag (l ++ [1]) = 0 := by rw [h']; simp
      rw [mag_concat, g1] at this
      omega
  | false =>
    simp only [Bool.false_eq_true, if_false, Bool.toNat_false, Nat.mul_zero, Nat.add_zero] at g3 ⊢
    have hzero : mag l < BASE ^ (l.length - 1) → l = [0] ∧ b = ZERO := by
      intro h
      rw [g1, g3] at h
      have hz : a = ZERO ∧ b = ZERO := by
        rcases Nat.le_total a.number.length b.number.length with hle | hle
        · rw [max_eq_right hle] at h
          have hbz : b = ZERO := by
            by_contra hc
            have := canonical_mag_ge hb hc
            omega
          have : mag b.number = 0 := by rw [hbz]; simp [ZERO]
          have hl1 : b.number.length = 1 := by rw [hbz]; rfl
          rw [hl1] at h
          simp at h
          exact ⟨mag_eq_zero_of_canonical ha (by omega), hbz⟩
        · rw [max_eq_left hle] at h
          have haz : a = ZERO := by
            by_contra hc
            have := canonical_mag_ge ha hc
            omega
          have : mag a.number = 0 := by rw [haz]; simp [ZERO]
          have hl1 : a.number.length = 1 := by rw [haz]; rfl
          rw [hl1] at h
          simp at h
          exact ⟨haz, mag_eq_zero_of_canonical hb (by omega)⟩
      refine ⟨?_, hz.2⟩
      have hl1 : l.length = 1 := by rw [g1, hz.1, hz.2]; rfl
      have hm0 : mag l = 0 := by rw [g3, hz.1, hz.2]; simp [ZERO]
      exact mag_inj l [0] g4 (by simp; decide) (by simpa using hl1) (by simpa using hm0)
    refine ⟨(canonical_iff _).mpr ⟨g4, ?_, fun h => (hzero h).1, ?_⟩, g3, trivial⟩
    · intro h
      have h' : l = [] := h
      have : l.length = 0 := by rw [h']; rfl
      omega
    · intro h
      have h' : l = [0] := h
      have : mag l < BASE ^ (l.length - 1) := by rw [h']; simp
      rw [(hzero this).2]; rfl

theorem sub_of_nonneg {a b : big_integer} (hsa : a.sign = false) (hsb : b.sign = false) :
    sub a b = sub_nn a b := by
  simp [sub, hsa, hsb]

theorem add_of_nonneg {a b : big_integer} (hsa : a.sign = false) (hsb : b.sign = false) :
    add a b = add_core a b := by
  simp [add, hsa, hsb]

/-- The layered definition of `add` satisfies the equation that is the body of
`operator+=` in the source. -/
theorem add_unfold (a b : big_integer) :
    add a b = if a.sign != b.sign then (if a.sign then sub b (neg a) else sub a (neg b))
      else add_core a b := by
  cases hsa : a.sign <;> cases hsb : b.sign
  · simp [add, hsa, hsb]
  · have h := neg_sign_of_neg hsb
    rw [sub_of_nonneg hsa h]
    simp [add, hsa, hsb]
  · have h := neg_sign_of_neg hsa
    rw [sub_of_nonneg hsb h]
    simp [add, hsa, hsb]
  · simp [add, hsa, hsb]

/-- The layered definition of `sub` satisfies the equation that is the body of
`operator-=` in the source. -/
theorem sub_unfold (a b : big_integer) :
    sub a b = if a.sign && b.sign then sub (neg b) (neg a)
      else if a.sign != b.sign then (if a.sign then neg (add (neg a) b) else add (neg b) a)
      else if lt a b then neg (sub b a) else sub_core a b := by
  cases hsa : a.sign <;> cases hsb : b.sign
  · rw [sub_of_nonneg hsb hsa]
    simp only [Bool.false_and, Bool.false_eq_true, if_false, bne_self_eq_false]
    rw [sub_of_nonneg hsa hsb, sub_nn]
    by_cases hlt : lt a b = true
    · rw [hlt, sub_nn, lt_asymm a b hlt]; simp
    · have : lt a b = false := by simpa using hlt
      rw [this]; simp
  · have h := neg_sign_of_neg hsb
    rw [add_of_nonneg h hsa]
    simp [sub, hsa, hsb]
  · have h := neg_sign_of_neg hsa
    rw [add_of_nonneg h hsb]
    simp [sub, hsa, hsb]
  · have h1 := neg_sign_of_neg hsa
    have h2 := neg_sign_of_neg hsb
    rw [sub_of_nonneg h2 h1]
    simp [sub, hsa, hsb]

theorem add_spec {a b : big_integer} (ha : canonical a) (hb : canonical b) :
    canonical (add a b) ∧ value (add a b) = value a + value b := by
  unfold add
  cases hsa : a.sign <;> cases hsb : b.sign
  · simp only [bne_self_eq_false, Bool.false_eq_true, if_false]
    obtain ⟨c1, c2, c3⟩ := add_core_spec ha hb
    refine ⟨c1, ?_⟩
    rw [value_of_nonneg (c3.trans hsb), c2, value_of_nonneg hsa, value_of_nonneg hsb]
    push_cast; rfl
  · simp only [Bool.false_bne, if_true, Bool.false_eq_true, if_false]
    obtain ⟨n1, n2⟩ := neg_spec hb
    obtain ⟨s1, s2⟩ := sub_nn_spec ha n1 hsa (neg_sign_of_neg hsb)
    refine ⟨s1, ?_⟩
    rw [s2, n2]; ring
  · simp only [Bool.true_bne, Bool.not_false, if_true]
    obtain ⟨n1, n2⟩ := neg_spec ha
    obtain ⟨s1, s2⟩ := sub_nn_spec hb n1 hsb (neg_sign_of_neg hsa)
    refine ⟨s1, ?_⟩
    rw [s2, n2]; ring
  · simp only [bne_self_eq_false, Bool.false_eq_true, if_false]
    obtain ⟨c1, c2, c3⟩ := add_core_spec ha hb
    refine ⟨c1, ?_⟩
    rw [value_of_neg (c3.trans hsb), c2, value_of_neg hsa, value_of_neg hsb]
    push_cast; ring

theorem sub_spec {a b : big_integer} (ha : canonical a) (hb : canonical b) :
    canonical (sub a b) ∧ value (sub a b) = value a - value b := by
  unfold sub
  cases hsa : a.sign <;> cases hsb : b.sign
  · simp only [Bool.false_and, Bool.false_eq_true, if_false, bne_self_eq_false]
    exact sub_nn_spec ha hb hsa hsb
  · simp only [Bool.false_and, Bool.false_eq_true, if_false, Bool.false_bne, if_true]
    obtain ⟨n1, n2⟩ := neg_spec hb
    obtain ⟨c1, c2, c3⟩ := add_core_spec n1 ha
    refine ⟨c1, ?_⟩
    rw [value_of_nonneg (c3.trans hsa), c2, value_of_nonneg hsa, value_of_neg hsb]
    have : mag (neg b).number = mag b.number := by
      unfold neg; split <;> rfl
    rw [this]; push_cast; ring
  · simp only [Bool.and_false, Bool.false_eq_true, if_false, Bool.true_bne, Bool.not_false,
      if_true]
    obtain ⟨n1, n2⟩ := neg_spec ha
    obtain ⟨c1, c2, c3⟩ := add_core_spec n1 hb
    obtain ⟨m1, m2⟩ := neg_spec c1
    refine ⟨m1, ?_⟩
    rw [m2, value_of_nonneg (c3.trans hsb), c2, value_of_neg hsa, value_of_nonneg hsb]
    have : mag (neg a).number = mag a.number := by
      unfold neg; split <;> rfl
    rw [this]; push_cast; ring
  · simp only [Bool.and_self, if_true]
    obtain ⟨n1, n2⟩ := neg_spec ha
    obtain ⟨n3, n4⟩ := neg_spec hb
    obtain ⟨s1, s2⟩ := sub_nn_spec n3 n1 (neg_sign_of_neg hsb) (neg_sign_of_neg hsa)
    refine ⟨s1, ?_⟩
    rw [s2, n2, n4]; ring

/-- C5: for canonical `a`, `b` of any signs, `a + b` and `a - b` are the canonical
representations of `value a + value b` and `value a - value b`; consequently
`(a + b) - b == a` and `a + (-a) == 0` under `operator==`. -/
theorem C5_add_sub_exact (a b : big_integer) (ha : canonical a) (hb : canonical b) :
    (canonical (add a b) ∧ value (add a b) = value a + value b) ∧
    (canonical (sub a b) ∧ value (sub a b) = value a - value b) ∧
    eq (sub (add a b) b) a = true ∧ eq (add a (neg a)) ZERO = true := by
  have hadd := add_spec ha hb
  have hsub := sub_spec ha hb
  refine ⟨hadd, hsub, ?_, ?_⟩
  · have h := sub_spec hadd.1 hb
    rw [eq_iff]
    apply canonical_ext h.1 ha
    rw [h.2, hadd.2]; ring
  · have hn := neg_spec ha
    have h := add_spec ha hn.1
    rw [eq_iff]
    apply canonical_ext h.1 canonical_ZERO
    rw [h.2, hn.2, value_ZERO]; ring

/-- C5 witness: the theorem applied to `-(2^32 - 1)` and `2^32 + 1`. -/
theorem C5_add_sub_exact_witness :
    canonical ⟨[4294967295], true⟩ ∧ canonical ⟨[1, 1], false⟩ ∧
    ((canonical (add ⟨[4294967295], true⟩ ⟨[1, 1], false⟩) ∧
      value (add ⟨[4294967295], true⟩ ⟨[1, 1], false⟩)
        = value ⟨[4294967295], true⟩ + value ⟨[1, 1], false⟩) ∧
    (canonical (sub ⟨[4294967295], true⟩ ⟨[1, 1], false⟩) ∧
      value (sub ⟨[4294967295], true⟩ ⟨[1, 1], false⟩)
        = value ⟨[4294967295], true⟩ - value ⟨[1, 1], false⟩) ∧
    eq (sub (add ⟨[4294967295], true⟩ ⟨[1, 1], false⟩) ⟨[1, 1], false⟩) ⟨[4294967295], true⟩ = true ∧
    eq (add ⟨[4294967295], true⟩ (neg ⟨[4294967295], true⟩)) ZERO = true) :=
  ⟨by decide, by decide, C5_add_sub_exact ⟨[4294967295], true⟩ ⟨[1, 1], false⟩ (by decide) (by decide)⟩

/-- C9: on canonical values `operator<` is irreflexive and transitive, exactly one of
`a < b`, `a == b`, `b < a` holds, and `a < b` holds exactly when `a - b` is negative. -/
theorem C9_strict_total_order (a b c : big_integer) (ha : canonical a) (hb : canonical b)
    (hc : canonical c) :
    lt a a = false ∧
    (lt a b = true → lt b c = true → lt a c = true) ∧
    ((lt a b = true ∧ eq a b = false ∧ lt b a = false) ∨
      (lt a b = false ∧ eq a b = true ∧ lt b a = false) ∨
      (lt a b = false ∧ eq a b = false ∧ lt b a = true)) ∧
    (lt a b = true ↔ (sub a b).sign = true) := by
  have hab := lt_spec ha hb
  have hba := lt_spec hb ha
  have hbc := lt_spec hb hc
  have hac := lt_spec ha hc
  have haa := lt_spec ha ha
  have lt_false : ∀ {x y : big_integer}, (lt x y = true ↔ value x < value y) →
      ¬ (value x < value y) → lt x y = false := by
    intro x y h hn
    cases hl : lt x y
    · rfl
    · exact absurd (h.mp hl) hn
  refine ⟨lt_false haa (lt_irrefl _), ?_, ?_, ?_⟩
  · intro h1 h2
    exact hac.mpr (lt_trans (hab.mp h1) (hbc.mp h2))
  · rcases lt_trichotomy (value a) (value b) with h | h | h
    · left
      refine ⟨hab.mpr h, ?_, lt_false hba (by omega)⟩
      rw [eq_false_iff]
      intro he; rw [he] at h; exact lt_irrefl _ h
    · right; left
      refine ⟨lt_false hab (by omega), (eq_iff a b).mpr (canonical_ext ha hb h),
        lt_false hba (by omega)⟩
    · right; right
      refine ⟨lt_false hab (by omega), ?_, hba.mpr h⟩
      rw [eq_false_iff]
      intro he; rw [he] at h; exact lt_irrefl _ h
  · have hs := sub_spec ha hb
    rw [sign_iff_value_neg hs.1, hs.2, hab]
    omega

/-- C9 witness: the theorem applied to `-2^32`, `-1` and `2^32`. -/
theorem C9_strict_total_order_witness :
    canonical ⟨[0, 1], true⟩ ∧ canonical ⟨[1], true⟩ ∧ canonical ⟨[0, 1], false⟩ ∧
    (lt ⟨[0, 1], true⟩ ⟨[0, 1], true⟩ = false ∧
    (lt ⟨[0, 1], true⟩ ⟨[1], true⟩ = true → lt ⟨[1], true⟩ ⟨[0, 1], false⟩ = true →
      lt ⟨[0, 1], true⟩ ⟨[0, 1], false⟩ = true) ∧
    ((lt ⟨[0, 1], true⟩ ⟨[1], true⟩ = true ∧ eq ⟨[0, 1], true⟩ ⟨[1], true⟩ = false ∧
        lt ⟨[1], true⟩ ⟨[0, 1], true⟩ = false) ∨
      (lt ⟨[0, 1], true⟩ ⟨[1], true⟩ = false ∧ eq ⟨[0, 1], true⟩ ⟨[1], true⟩ = true ∧
        lt ⟨[1], true⟩ ⟨[0, 1], true⟩ = false) ∨
      (lt ⟨[0, 1], true⟩ ⟨[1], true⟩ = false ∧ eq ⟨[0, 1], true⟩ ⟨[1], true⟩ = false ∧
        lt ⟨[1], true⟩ ⟨[0, 1], true⟩ = true)) ∧
    (lt ⟨[0, 1], true⟩ ⟨[1], true⟩ = true ↔ (sub ⟨[0, 1], true⟩ ⟨[1], true⟩).sign = true)) :=
  ⟨by decide, by decide, by decide,
    C9_strict_total_order ⟨[0, 1], true⟩ ⟨[1], true⟩ ⟨[0, 1], false⟩
      (by decide) (by decide) (by decide)⟩

/-- The value truncated and stored by outer iteration `i` of `operator*=` is the sum
`mul_store`. -/
theorem mul_outer_succ (number rhs : List Nat) (i : Nat) :
    mul_outer number rhs (i + 1) =
      (mul_inner (number.getD i 0) rhs i (mul_outer number rhs i) rhs.length).1.set
        (i + rhs.length) (mul_store number rhs i % BASE) :=
  rfl

theorem mul_num_lt (x y u c : Nat) (hx : x < BASE) (hy : y < BASE) (hu : u < BASE)
    (hc : c < BASE) : x * y + u + c < WORD64 := by
  have hB : BASE = 4294967296 := rfl
  have hW : WORD64 = 18446744073709551616 := rfl
  rw [hB] at hx hy hu hc
  rw [hW]
  have h1 : x * y ≤ 4294967295 * 4294967295 := Nat.mul_le_mul (by omega) (by omega)
  omega

theorem mul_inner_inv (ai : Nat) (rhs : List Nat) (i : Nat) (cur0 : List Nat)
    (hai : ai < BASE) (hr : ∀ y ∈ rhs, y < BASE) (hc0 : ∀ y ∈ cur0, y < BASE)
    (s : Nat) (hs : s ≤ rhs.length) (hlen : i + rhs.length < cur0.length) :
    (mul_inner ai rhs i cur0 s).1.length = cur0.length ∧
    (∀ k, i + s ≤ k → (mul_inner ai rhs i cur0 s).1.getD k 0 = cur0.getD k 0) ∧
    mag (mul_inner ai rhs i cur0 s).1 + BASE ^ (i + s) * (mul_inner ai rhs i cur0 s).2
      = mag cur0 + BASE ^ i * (ai * mag (rhs.take s)) ∧
    (mul_inner ai rhs i cur0 s).2 < BASE ∧
    (∀ y ∈ (mul_inner ai rhs i cur0 s).1, y < BASE) := by
  induction s with
  | zero =>
    refine ⟨rfl, fun k _ => rfl, ?_, BASE_pos, hc0⟩
    simp [mul_inner]
  | succ s ih =>
    have ih' := ih (by omega)
    clear ih
    simp only [mul_inner]
    rcases hst : mul_inner ai rhs i cur0 s with ⟨l, c⟩
    rw [hst] at ih'
    obtain ⟨h1, h2, h3, h4, h5⟩ := ih'
    simp only at h1 h2 h3 h4 h5 ⊢
    have hy := getD_lt_of_bounded rhs hr s
    have hu := getD_lt_of_bounded l h5 (i + s)
    have hnum := Nat.mod_eq_of_lt (mul_num_lt ai (rhs.getD s 0) (l.getD (i + s) 0) c hai hy hu h4)
    rw [hnum]
    have hB : BASE = 4294967296 := rfl
    have hW : WORD64 = 18446744073709551616 := rfl
    have hlt := mul_num_lt ai (rhs.getD s 0) (l.getD (i + s) 0) c hai hy hu h4
    refine ⟨by simpa using h1, ?_, ?_, ?_, bounded_set _ _ _ h5 (Nat.mod_lt _ BASE_pos)⟩
    · intro k hk
      rw [getD_set_ne _ _ _ _ (by omega)]
      exact h2 k (by omega)
    · have hset := mag_set l (i + s) ((ai * rhs.getD s 0 + l.getD (i + s) 0 + c) % BASE)
        (by omega)
      rw [mag_take_succ]
      have hdm := Nat.mod_add_div (ai * rhs.getD s 0 + l.getD (i + s) 0 + c) BASE
      generalize (ai * rhs.getD s 0 + l.getD (i + s) 0 + c) % BASE = r at *
      generalize (ai * rhs.getD s 0 + l.getD (i + s) 0 + c) / BASE = q at *
      generalize mag (l.set (i + s) r) = M' at *
      generalize mag (rhs.take s) = R at *
      generalize rhs.getD s 0 = y at *
      generalize l.getD (i + s) 0 = u at *
      generalize mag l = M at *
      generalize mag cur0 = M0 at *
      have e1 : BASE ^ (i + s + 1) = BASE ^ (i + s) * BASE := pow_succ _ _
      have e2 : BASE ^ (i + s) = BASE ^ i * BASE ^ s := pow_add _ _ _
      rw [← Nat.add_assoc, e1]
      rw [e2] at h3 hset ⊢
      generalize BASE ^ i = P at *
      generalize BASE ^ s = Q at *
      have hq' : r + BASE * q = ai * y + u + c := hdm
      zify at hset h3 hq' ⊢
      linear_combination hset + h3 + ((P : Int) * Q) * hq'
    · rw [hW] at hlt
      rw [hB]
      omega

theorem mul_outer_inv (a rhs : List Nat) (ha : ∀ y ∈ a, y < BASE) (hr : ∀ y ∈ rhs, y < BASE)
    (i : Nat) (hi : i ≤ a.length) :
    (mul_outer a rhs i).length = a.length + rhs.length ∧
    (∀ y ∈ mul_outer a rhs i, y < BASE) ∧
    (∀ k, i + rhs.length ≤ k → (mul_outer a rhs i).getD k 0 = 0) ∧
    mag (mul_outer a rhs i) = mag (a.take i) * mag rhs ∧
    (i < a.length → mul_store a rhs i < BASE) := by
  have store : ∀ j, j < a.length → (mul_outer a rhs j).length = a.length + rhs.length →
      (∀ y ∈ mul_outer a rhs j, y < BASE) →
      (∀ k, j + rhs.length ≤ k → (mul_outer a rhs j).getD k 0 = 0) →
      (mul_inner (a.getD j 0) rhs j (mul_outer a rhs j) rhs.length).1.getD (j + rhs.length) 0
        + (mul_inner (a.getD j 0) rhs j (mul_outer a rhs j) rhs.length).2 % BASE
      = (mul_inner (a.getD j 0) rhs j (mul_outer a rhs j) rhs.length).2 ∧
      (mul_inner (a.getD j 0) rhs j (mul_outer a rhs j) rhs.length).2 < BASE := by
    intro j hj g1 g2 g3
    obtain ⟨_, h2, _, h4, _⟩ := mul_inner_inv (a.getD j 0) rhs j (mul_outer a rhs j)
      (getD_lt_of_bounded a ha j) hr g2 rhs.length (le_refl _) (by omega)
    rw [h2 _ (le_refl _), g3 _ (le_refl _), Nat.mod_eq_of_lt h4]
    exact ⟨by omega, h4⟩
  induction i with
  | zero =>
    refine ⟨by simp [mul_outer], ?_, ?_, by simp [mul_outer, mag_replicate_zero], ?_⟩
    · intro y hy
      simp only [mul_outer] at hy
      rw [(List.mem_replicate.mp hy).2]; exact BASE_pos
    · intro k _
      simp only [mul_outer]
      by_cases hk : k < a.length + rhs.length
      · rw [List.getD_eq_getElem _ _ (by simpa using hk)]; simp
      · rw [List.getD_eq_default _ _ (by simp; omega)]
    · intro h0
      have hz : ∀ k, 0 + rhs.length ≤ k → (mul_outer a rhs 0).getD k 0 = 0 := by
        intro k _
        simp only [mul_outer]
        by_cases hk : k < a.length + rhs.length
        · rw [List.getD_eq_getElem _ _ (by simpa using hk)]; simp
        · rw [List.getD_eq_default _ _ (by simp; omega)]
      have hb0 : ∀ y ∈ mul_outer a rhs 0, y < BASE := by
        intro y hy
        simp only [mul_outer] at hy
        rw [(List.mem_replicate.mp hy).2]; exact BASE_pos
      have := store 0 h0 (by simp [mul_outer]) hb0 hz
      unfold mul_store
      simp only
      rw [this.1]; exact this.2
  | succ i ih =>
    obtain ⟨g1, g2, g3, g4, _⟩ := ih (by omega)
    clear ih
    have hst := store i (by omega) g1 g2 g3
    obtain ⟨h1, h2, h3, h4, h5⟩ := mul_inner_inv (a.getD i 0) rhs i (mul_outer a rhs i)
      (getD_lt_of_bounded a ha i) hr g2 rhs.length (le_refl _) (by omega)
    have e : mul_outer a rhs (i + 1) =
        (mul_inner (a.getD i 0) rhs i (mul_outer a rhs i) rhs.length).1.set (i + rhs.length)
          ((mul_inner (a.getD i 0) rhs i (mul_outer a rhs i) rhs.length).2 % BASE) := by
      rw [mul_outer, hst.1]
    have hzero : (mul_inner (a.getD i 0) rhs i (mul_outer a rhs i) rhs.length).1.getD
        (i + rhs.length) 0 = 0 := by
      rw [h2 _ (le_refl _), g3 _ (le_refl _)]
    have r1 : (mul_outer a rhs (i + 1)).length = a.length + rhs.length := by
      rw [e]; simpa [g1] using h1
    have r2 : ∀ y ∈ mul_outer a rhs (i + 1), y < BASE := by
      rw [e]; exact bounded_set _ _ _ h5 (Nat.mod_lt _ BASE_pos)
    have r3 : ∀ k, i + 1 + rhs.length ≤ k → (mul_outer a rhs (i + 1)).getD k 0 = 0 := by
      intro k hk
      rw [e, getD_set_ne _ _ _ _ (by omega), h2 k (by omega), g3 k (by omega)]
    have r4 : mag (mul_outer a rhs (i + 1)) = mag (a.take (i + 1)) * mag rhs := by
      rw [e, mag_take_succ]
      have hset := mag_set (mul_inner (a.getD i 0) rhs i (mul_outer a rhs i) rhs.length).1
        (i + rhs.length) ((mul_inner (a.getD i 0) rhs i (mul_outer a rhs i) rhs.length).2 % BASE)
        (by rw [h1, g1]; omega)
      rw [hzero, Nat.mod_eq_of_lt h4] at hset
      rw [Nat.mod_eq_of_lt h4]
      rw [List.take_of_length_le (le_refl _), g4] at h3
      rw [Nat.mul_zero, Nat.add_zero] at hset
      rw [hset, h3]
      ring
    refine ⟨r1, r2, r3, r4, ?_⟩
    intro hlt
    have := store (i + 1) hlt r1 r2 r3
    unfold mul_store
    simp only
    rw [this.1]; exact this.2

theorem of_int_zero : of_int 0 = ZERO := by decide

theorem mag_ZERO : mag ZERO.number = 0 := by simp [ZERO]

theorem mul_zero_left (b : big_integer) : mul ZERO b = ZERO := by
  unfold mul
  rw [(eq_iff ZERO ZERO).mpr rfl]
  simp [of_int_zero]

theorem mul_zero_right (a : big_integer) : mul a ZERO = ZERO := by
  unfold mul
  rw [(eq_iff ZERO ZERO).mpr rfl]
  simp [of_int_zero]

theorem mul_of_ne_zero {a b : big_integer} (ha : a ≠ ZERO) (hb : b ≠ ZERO) :
    mul a b = delete_zero ⟨mul_outer a.number b.number a.number.length, xor a.sign b.sign⟩ := by
  unfold mul
  rw [(eq_false_iff a ZERO).mpr ha, (eq_false_iff b ZERO).mpr hb]
  simp

theorem delete_zero_sign (a : big_integer) (h : mag a.number ≠ 0) :
    (delete_zero a).sign = a.sign := by
  unfold delete_zero
  simp only
  split
  · next he =>
    have : a.number.rdropWhile (fun x => x == 0) = [] := by simpa using he
    exact absurd ((strip_eq_nil_iff _).mp this) h
  · rfl

theorem mul_spec {a b : big_integer} (ha : canonical a) (hb : canonical b) :
    canonical (mul a b) ∧ value (mul a b) = value a * value b ∧
      (a ≠ ZERO → b ≠ ZERO → (mul a b).sign = xor a.sign b.sign) := by
  by_cases hza : a = ZERO
  · rw [hza, mul_zero_left, value_ZERO]
    exact ⟨canonical_ZERO, by ring, fun h => absurd rfl h⟩
  by_cases hzb : b = ZERO
  · rw [hzb, mul_zero_right, value_ZERO]
    exact ⟨canonical_ZERO, by ring, fun _ h => absurd rfl h⟩
  obtain ⟨g1, g2, _, g4, _⟩ := mul_outer_inv a.number b.number ha.1 hb.1 a.number.length
    (le_refl _)
  rw [List.take_of_length_le (le_refl _)] at g4
  rw [mul_of_ne_zero hza hzb]
  have pa := canonical_mag_pos ha hza
  have pb := canonical_mag_pos hb hzb
  refine ⟨delete_zero_canonical _ g2, ?_, fun _ _ => ?_⟩
  · rw [value_delete_zero]
    unfold value
    simp only [g4]
    cases a.sign <;> cases b.sign <;> simp
  · apply delete_zero_sign
    simp only [g4]
    exact Nat.mul_ne_zero (by omega) (by omega)

/-- C6: for canonical `a`, `b` the product `a * b` is the canonical representation of
`value a * value b`; its sign is the XOR of the operand signs when the product is
non-zero; it is canonical zero when an operand is zero; and the sum stored into
`cur[i + b_size]` stays below `2^32` in every outer iteration. -/
theorem C6_mul_exact (a b : big_integer) (ha : canonical a) (hb : canonical b) :
    canonical (mul a b) ∧ value (mul a b) = value a * value b ∧
    (value a * value b ≠ 0 → (mul a b).sign = xor a.sign b.sign) ∧
    ((a = ZERO ∨ b = ZERO) → mul a b = ZERO) ∧
    (∀ i, i < a.number.length → mul_store a.number b.number i < BASE) := by
  obtain ⟨h1, h2, h3⟩ := mul_spec ha hb
  refine ⟨h1, h2, ?_, ?_, ?_⟩
  · intro hne
    apply h3
    · intro hz; apply hne; rw [hz, value_ZERO]; ring
    · intro hz; apply hne; rw [hz, value_ZERO]; ring
  · rintro (hz | hz)
    · rw [hz, mul_zero_left]
    · rw [hz, mul_zero_right]
  · intro i hi
    exact (mul_outer_inv a.number b.number ha.1 hb.1 i (le_of_lt hi)).2.2.2.2 hi

/-- C6 witness: the theorem applied to `-(2^64 - 1)` and `2^32 - 1`. -/
theorem C6_mul_exact_witness :
    canonical ⟨[4294967295, 4294967295], true⟩ ∧ canonical ⟨[4294967295], false⟩ ∧
    (canonical (mul ⟨[4294967295, 4294967295], true⟩ ⟨[4294967295], false⟩) ∧
    value (mul ⟨[4294967295, 4294967295], true⟩ ⟨[4294967295], false⟩)
      = value ⟨[4294967295, 4294967295], true⟩ * value ⟨[4294967295], false⟩ ∧
    (value ⟨[4294967295, 4294967295], true⟩ * value ⟨[4294967295], false⟩ ≠ 0 →
      (mul ⟨[4294967295, 4294967295], true⟩ ⟨[4294967295], false⟩).sign = xor true false) ∧
    (((⟨[4294967295, 4294967295], true⟩ : big_integer) = ZERO ∨
        (⟨[4294967295], false⟩ : big_integer) = ZERO) →
      mul ⟨[4294967295, 4294967295], true⟩ ⟨[4294967295], false⟩ = ZERO) ∧
    (∀ i, i < 2 → mul_store [4294967295, 4294967295] [4294967295] i < BASE)) :=
  ⟨by decide, by decide,
    C6_mul_exact ⟨[4294967295, 4294967295], true⟩ ⟨[4294967295], false⟩ (by decide) (by decide)⟩

/-- A two-limb divisor whose top limb is `0xFFFFFFFF`: the 32-bit sum
`bi.number.back() + 1` wraps to `0` and the normalization factor divides by zero. -/
theorem div_mod_factor_denominator_zero (fuel : Nat) :
    div_mod (fuel + 1) ⟨[0, 4294967295], false⟩ ⟨[0, 4294967295], false⟩ = .div_by_zero :=
  rfl

/-- A digit position where the trial digit `2^32 - 1` exceeds the true digit `2^32 - 3`
by two: after the single decrement the subtraction `*this -= dif` still underflows, the
running remainder turns negative, and the returned pair is not a quotient and remainder
of the operands. -/
theorem div_mod_single_correction (fuel : Nat) :
    div_mod (fuel + 3) ⟨[0, 2147483648, 2147483647], false⟩ ⟨[4294967295, 2147483648], false⟩
      = .val (⟨[4294967294], true⟩, ⟨[2, 2147483645], false⟩) :=
  rfl

/-- C1 (does not hold on the code): for `a = -7`, `b = -3` the short-division branch
of `div_mod` returns quotient `2` and remainder `+1`, so `(a / b) * b + (a % b)` is
`-5` and `operator==` against `a` is false. -/
theorem C1_div_reconstruction_fails :
    canonical ⟨[7], true⟩ ∧ canonical ⟨[3], true⟩ ∧ ne ⟨[3], true⟩ ZERO = true ∧
    (∀ fuel, div (fuel + 1) ⟨[7], true⟩ ⟨[3], true⟩ = .val ⟨[2], false⟩ ∧
      mod (fuel + 1) ⟨[7], true⟩ ⟨[3], true⟩ = .val ⟨[1], false⟩) ∧
    add (mul ⟨[2], false⟩ ⟨[3], true⟩) ⟨[1], false⟩ = ⟨[5], true⟩ ∧
    eq (add (mul ⟨[2], false⟩ ⟨[3], true⟩) ⟨[1], false⟩) ⟨[7], true⟩ = false :=
  ⟨by decide, by decide, by decide, fun _ => ⟨rfl, rfl⟩, by decide, by decide⟩

/-- C2 (does not hold on the code): for `a = b = 2^32` (two limbs each) the long
division runs no digit step, the quotient is `0` and `a % b` is `a` itself, whose
magnitude is not smaller than the magnitude of `b`. -/
theorem C2_remainder_bound_fails :
    canonical ⟨[0, 1], false⟩ ∧ ne ⟨[0, 1], false⟩ ZERO = true ∧
    (∀ fuel, div_mod (fuel + 2) ⟨[0, 1], false⟩ ⟨[0, 1], false⟩
      = .val (ZERO, ⟨[0, 1], false⟩)) ∧
    (∀ fuel, mod (fuel + 2) ⟨[0, 1], false⟩ ⟨[0, 1], false⟩ = .val ⟨[0, 1], false⟩) ∧
    ¬ (mag [0, 1] < mag [0, 1]) :=
  ⟨by decide, by decide, fun _ => rfl, fun _ => rfl, by decide⟩

/-- The multi-limb branch of `div_mod` with both operands negative: the remainder of
`-(2^33 + 1)` by `-2^32` carries the sign of the dividend (`rem_sign`). -/
theorem div_mod_long_keeps_remainder_sign (fuel : Nat) :
    div_mod (fuel + 2) ⟨[1, 2], true⟩ ⟨[0, 1], true⟩ = .val (⟨[2], false⟩, ⟨[1], true⟩) :=
  rfl

/-- C3 (does not hold on the code): for `a = -7`, `b = -3` the remainder `a % b` is
`+1`: it is not canonical zero and its sign differs from the sign of the dividend. -/
theorem C3_remainder_sign_fails :
    canonical ⟨[7], true⟩ ∧ canonical ⟨[3], true⟩ ∧
    (∀ fuel, mod (fuel + 1) ⟨[7], true⟩ ⟨[3], true⟩ = .val ⟨[1], false⟩) ∧
    (⟨[1], false⟩ : big_integer) ≠ ZERO ∧
    (⟨[1], false⟩ : big_integer).sign ≠ (⟨[7], true⟩ : big_integer).sign :=
  ⟨by decide, by decide, fun _ => rfl, by decide, by decide⟩

/-- C10 (does not hold on the code): `-1 & -1`, `-1 | -1` and `-1 ^ 0` all evaluate
to `4294967295`, while the integer results are `-1`, `-1` and `-1`. -/
theorem C10_bitwise_fails :
    canonical ⟨[1], true⟩ ∧ value ⟨[1], true⟩ = -1 ∧ value ZERO = 0 ∧
    band ⟨[1], true⟩ ⟨[1], true⟩ = .val ⟨[4294967295], false⟩ ∧
    bor ⟨[1], true⟩ ⟨[1], true⟩ = .val ⟨[4294967295], false⟩ ∧
    bxor ⟨[1], true⟩ ZERO = .val ⟨[4294967295], false⟩ ∧
    value ⟨[4294967295], false⟩ = 4294967295 ∧
    Int.land (-1) (-1) = -1 ∧ Int.lor (-1) (-1) = -1 ∧ Int.xor (-1) 0 = -1 :=
  ⟨by decide, by decide, by decide, by decide, by decide, by decide, by decide,
    by decide, by decide, by decide⟩

/-- C4 counterexample: `0 / 0` and `0 % 0` return canonical zero; no error is raised. -/
theorem C4_zero_by_zero_returns :
    div 1 ZERO ZERO = .val ZERO ∧ mod 1 ZERO ZERO = .val ZERO :=
  ⟨by decide, by decide⟩

theorem neg_ZERO : neg ZERO = ZERO := by decide

theorem div_mod_neg_by_zero (a : big_integer) (hs : a.sign = true) (fuel : Nat) :
    div_mod fuel a ZERO = .no_fuel := by
  induction fuel with
  | zero => rfl
  | succ n ih =>
    have h1 : eq a ZERO = false := (eq_false_iff a ZERO).mpr (canonical_neg_ne_zero hs)
    have h2 : gt a ZERO = false := by
      unfold gt lt
      simp [ZERO, hs]
    have h3 : (a.sign != ZERO.sign) = true := by simp [ZERO, hs]
    rw [div_mod]
    simp only [h1, h2, hs, h3, Bool.false_and, Bool.and_false, Bool.or_self, Bool.not_true,
      Bool.false_eq_true, if_false, if_true, neg_ZERO, ih]
    rfl

theorem lt_ZERO_of_nonneg {a : big_integer} (ha : canonical a) (hs : a.sign = false) :
    lt a ZERO = false := by
  cases h : lt a ZERO
  · rfl
  · have := (lt_spec ha canonical_ZERO).mp h
    rw [value_ZERO, value_of_nonneg hs] at this
    omega

theorem div_mod_pos_by_zero (a : big_integer) (ha : canonical a) (hz : a ≠ ZERO)
    (hs : a.sign = false) (fuel : Nat) : div_mod (fuel + 1) a ZERO = .div_by_zero := by
  have h1 : eq a ZERO = false := (eq_false_iff a ZERO).mpr hz
  have h2 := lt_ZERO_of_nonneg ha hs
  have h3 : (a.sign != ZERO.sign) = false := by simp [ZERO, hs]
  have h4 : ZERO.number.length = 1 := rfl
  rw [div_mod]
  simp only [h1, h2, hs, h3, h4, Bool.false_and, Bool.and_false, Bool.or_self,
    Bool.false_eq_true, if_false, if_true]
  unfold divide_long_short
  simp only
  obtain ⟨n, hn⟩ := Nat.exists_eq_succ_of_ne_zero (Nat.pos_iff_ne_zero.mp (canonical_length_pos ha))
  rw [hn]
  rfl

/-- C4 (amended): `div_mod` has no zero-divisor check. With the divisor `0`, for a
canonical dividend `a`: if `a = 0`, `a / 0` and `a % 0` return canonical zero; if
`a > 0`, the short-division loop divides a machine word by zero and no value is
produced; if `a < 0`, the sign dispatch re-enters `div_mod` on the same operands
and no amount of fuel lets it return. -/
theorem C4_div_by_zero_unguarded (a : big_integer) (ha : canonical a) :
    (a = ZERO → ∀ fuel, div (fuel + 1) a ZERO = .val ZERO ∧ mod (fuel + 1) a ZERO = .val ZERO) ∧
    (a ≠ ZERO → a.sign = false →
      ∀ fuel, div (fuel + 1) a ZERO = .div_by_zero ∧ mod (fuel + 1) a ZERO = .div_by_zero) ∧
    (a.sign = true → ∀ fuel, div fuel a ZERO = .no_fuel ∧ mod fuel a ZERO = .no_fuel) := by
  refine ⟨?_, ?_, ?_⟩
  · intro h fuel
    rw [h]
    exact ⟨rfl, rfl⟩
  · intro hz hs fuel
    unfold div mod
    rw [div_mod_pos_by_zero a ha hz hs fuel]
    exact ⟨rfl, rfl⟩
  · intro hs fuel
    unfold div mod
    rw [div_mod_neg_by_zero a hs fuel]
    exact ⟨rfl, rfl⟩

/-- C4 witness: the amended statement at the dividend `5`. -/
theorem C4_div_by_zero_unguarded_witness :
    canonical ⟨[5], false⟩ ∧
    (((⟨[5], false⟩ : big_integer) = ZERO →
      ∀ fuel, div (fuel + 1) ⟨[5], false⟩ ZERO = .val ZERO ∧
        mod (fuel + 1) ⟨[5], false⟩ ZERO = .val ZERO) ∧
    ((⟨[5], false⟩ : big_integer) ≠ ZERO → (⟨[5], false⟩ : big_integer).sign = false →
      ∀ fuel, div (fuel + 1) ⟨[5], false⟩ ZERO = .div_by_zero ∧
        mod (fuel + 1) ⟨[5], false⟩ ZERO = .div_by_zero) ∧
    ((⟨[5], false⟩ : big_integer).sign = true →
      ∀ fuel, div fuel ⟨[5], false⟩ ZERO = .no_fuel ∧ mod fuel ⟨[5], false⟩ ZERO = .no_fuel)) :=
  ⟨by decide, C4_div_by_zero_unguarded ⟨[5], false⟩ (by decide)⟩

theorem from_string_loop_none_iff (ds : List Char) (this : big_integer) :
    from_string_loop ds this = none ↔ ∃ c ∈ ds, c.isDigit = false := by
  induction ds generalizing this with
  | nil => simp [from_string_loop]
  | cons c cs ih =>
    rw [from_string_loop]
    cases hc : c.isDigit
    · simp [hc]
    · simp only [Bool.not_true, Bool.false_eq_true, if_false, ih, List.mem_cons]
      constructor
      · rintro ⟨d, hd, hd'⟩
        exact ⟨d, Or.inr hd, hd'⟩
      · rintro ⟨d, hd | hd, hd'⟩
        · rw [hd, hc] at hd'; exact absurd hd' (by simp)
        · exact ⟨d, hd, hd'⟩

theorem dropWhile_zero_nondigit (l : List Char) :
    (∃ c ∈ l.dropWhile (fun c => c == '0'), c.isDigit = false) ↔ ∃ c ∈ l, c.isDigit = false := by
  induction l with
  | nil => simp
  | cons c cs ih =>
    by_cases h : c = '0'
    · subst h
      simp only [List.dropWhile_cons, beq_self_eq_true, if_true, ih, List.mem_cons]
      constructor
      · rintro ⟨d, hd, hd'⟩
        exact ⟨d, Or.inr hd, hd'⟩
      · rintro ⟨d, hd | hd, hd'⟩
        · rw [hd] at hd'; exact absurd hd' (by decide)
        · exact ⟨d, hd, hd'⟩
    · have : (c == '0') = false := by simpa using h
      simp [List.dropWhile_cons, this]

theorem string_eq_iff_data (s : String) (l : List Char) : s = String.mk l ↔ s.data = l := by
  constructor
  · intro h; rw [h]
  · intro h; cases s; simp_all

/-- C8: the string constructor throws exactly when the string is empty, is exactly
`+` or `-`, or has a character after the optional leading sign that is not a decimal
digit; every other string is accepted. -/
theorem C8_from_string_fails_iff (s : String) :
    from_string s = none ↔
      (s = "" ∨ s = "+" ∨ s = "-" ∨ ∃ c ∈ digits_part s.data, c.isDigit = false) := by
  have e0 : s = "" ↔ s.data = [] := string_eq_iff_data s []
  have e1 : s = "+" ↔ s.data = ['+'] := string_eq_iff_data s ['+']
  have e2 : s = "-" ↔ s.data = ['-'] := string_eq_iff_data s ['-']
  rw [e0, e1, e2]
  unfold from_string
  rcases hd : s.data with _ | ⟨c0, tail⟩
  · simp
  · simp only [digits_part]
    by_cases hsign : c0 = '+' ∨ c0 = '-'
    · have hb : (c0 == '-' || c0 == '+') = true := by
        rcases hsign with h | h <;> simp [h]
      rw [hb]
      simp only [Bool.true_and, if_true, hsign]
      cases tail with
      | nil =>
        rcases hsign with h | h <;> simp [h]
      | cons t ts =>
        simp only [List.isEmpty_cons, Bool.false_eq_true, if_false]
        have hne : ¬ ((c0 :: t :: ts = []) ∨ (c0 :: t :: ts = ['+']) ∨ (c0 :: t :: ts = ['-'])) := by
          simp
        rw [← dropWhile_zero_nondigit (t :: ts)]
        rcases hr : (t :: ts).dropWhile (fun c => c == '0') with _ | ⟨r, rs⟩
        · simp
        · simp only [List.isEmpty_cons, Bool.false_eq_true, if_false]
          have := from_string_loop_none_iff (r :: rs) ZERO
          cases hl : from_string_loop (r :: rs) ZERO with
          | none =>
            rw [hl] at this
            simp only [Option.none_bind, true_iff]
            right; right; right
            exact this.mp rfl
          | some v =>
            rw [hl] at this
            simp only [Option.some_bind]
            refine ⟨fun h => absurd h (by simp), ?_⟩
            rintro (h | h | h | h)
            · simp at h
            · simp at h
            · simp at h
            · exact absurd (this.mpr h) (by simp)
    · have hb : (c0 == '-' || c0 == '+') = false := by
        simp only [not_or] at hsign
        simp [hsign.1, hsign.2]
      rw [hb]
      simp only [Bool.false_and, Bool.false_eq_true, if_false, hsign]
      rw [← dropWhile_zero_nondigit (c0 :: tail)]
      have hne1 : c0 :: tail ≠ ['+'] := by
        intro h; injection h with h1 _; exact hsign (Or.inl h1)
      have hne2 : c0 :: tail ≠ ['-'] := by
        intro h; injection h with h1 _; exact hsign (Or.inr h1)
      rcases hr : (c0 :: tail).dropWhile (fun c => c == '0') with _ | ⟨r, rs⟩
      · simp [hne1, hne2]
      · simp only [List.isEmpty_cons, Bool.false_eq_true, if_false]
        have := from_string_loop_none_iff (r :: rs) ZERO
        cases hl : from_string_loop (r :: rs) ZERO with
        | none =>
          rw [hl] at this
          simp only [Option.none_bind, true_iff]
          right; right; right
          exact this.mp rfl
        | some v =>
          rw [hl] at this
          simp only [Option.some_bind]
          refine ⟨fun h => absurd h (by simp), ?_⟩
          rintro (h | h | h | h)
          · simp at h
          · exact absurd h hne1
          · exact absurd h hne2
          · exact absurd (this.mpr h) (by simp)

theorem divide_loop_spec (s : Nat) (hs0 : 0 < s) (hsB : s < BASE) (i : Nat) :
    ∀ (number : List Nat) (carry : Nat), i ≤ number.length → (∀ y ∈ number, y < BASE) →
      carry < s →
      ∃ number' carry', divide_loop s i number carry = .val (number', carry') ∧
        number'.length = number.length ∧ (∀ y ∈ number', y < BASE) ∧ carry' < s ∧
        (∀ k, i ≤ k → number'.getD k 0 = number.getD k 0) ∧
        mag (number.take i) + BASE ^ i * carry = s * mag (number'.take i) + carry' := by
  induction i with
  | zero =>
    intro number carry _ hb hc
    exact ⟨number, carry, rfl, rfl, hb, hc, fun k _ => rfl, by simp⟩
  | succ i ih =>
    intro number carry hi hb hc
    have hB : BASE = 4294967296 := rfl
    have hW : WORD64 = 18446744073709551616 := rfl
    have hx := getD_lt_of_bounded number hb i
    have hcb : (carry * BASE) % WORD64 = carry * BASE := by
      apply Nat.mod_eq_of_lt
      rw [hB] at hsB ⊢; rw [hW]; omega
    have htmp : carry * BASE + number.getD i 0 < s * BASE := by
      have : (carry + 1) * BASE ≤ s * BASE := Nat.mul_le_mul_right _ hc
      rw [Nat.add_mul] at this
      omega
    have hq : (carry * BASE + number.getD i 0) / s < BASE :=
      Nat.div_lt_of_lt_mul htmp
    have hr : (carry * BASE + number.getD i 0) % s < s := Nat.mod_lt _ hs0
    rw [divide_loop]
    simp only [Nat.ne_of_gt hs0, if_false, hcb, Nat.mod_eq_of_lt hq,
      Nat.mod_eq_of_lt (lt_trans hr hsB)]
    obtain ⟨n', c', e, h1, h2, h3, h4, h5⟩ := ih (number.set i ((carry * BASE + number.getD i 0) / s))
      ((carry * BASE + number.getD i 0) % s) (by simp; omega)
      (bounded_set _ _ _ hb hq) hr
    refine ⟨n', c', e, by simpa using h1, h2, h3, ?_, ?_⟩
    · intro k hk
      rw [h4 k (by omega), getD_set_ne _ _ _ _ (by omega)]
    · have hqi : n'.getD i 0 = (carry * BASE + number.getD i 0) / s := by
        rw [h4 i (le_refl _), getD_set_eq _ _ _ (by omega)]
      rw [take_set_self] at h5
      rw [mag_take_succ, mag_take_succ, hqi, pow_succ]
      have hdm := Nat.div_add_mod (carry * BASE + number.getD i 0) s
      generalize (carry * BASE + number.getD i 0) / s = q at *
      generalize (carry * BASE + number.getD i 0) % s = r at *
      generalize number.getD i 0 = x at *
      generalize mag (number.take i) = M at *
      generalize mag (n'.take i) = M' at *
      generalize BASE ^ i = P at *
      zify at h5 hdm ⊢
      linear_combination h5 - (P : Int) * hdm

theorem divide_long_short_spec (a : big_integer) (s : Nat) (hs0 : 0 < s) (hsB : s < BASE)
    (hb : ∀ y ∈ a.number, y < BASE) :
    ∃ q m, divide_long_short a s = .val (q, m) ∧ canonical q ∧
      mag q.number = mag a.number / s ∧ (q.sign = true → a.sign = true) ∧
      m = ⟨[mag a.number % s], false⟩ := by
  obtain ⟨n', c', e, _, h2, h3, _, h5⟩ := divide_loop_spec s hs0 hsB a.number.length a.number 0
    (le_refl _) hb hs0
  have hl : n'.length ≤ a.number.length := by omega
  rw [List.take_of_length_le (le_refl _), List.take_of_length_le hl] at h5
  simp only [Nat.mul_zero, Nat.add_zero] at h5
  have hdiv : mag a.number / s = mag n' := by
    rw [h5]
    rw [Nat.mul_add_div hs0, Nat.div_eq_of_lt h3]
    rfl
  have hmod : mag a.number % s = c' := by
    rw [h5, Nat.mul_add_mod, Nat.mod_eq_of_lt h3]
  refine ⟨delete_zero ⟨n', a.sign⟩, of_uint c', ?_, delete_zero_canonical _ h2, ?_, ?_, ?_⟩
  · unfold divide_long_short
    rw [e]
    rfl
  · rw [mag_delete_zero, hdiv]
  · unfold delete_zero
    simp only
    split <;> simp
  · unfold of_uint
    rw [hmod, Nat.mod_eq_of_lt (lt_trans h3 hsB)]

theorem canonical_TEN : canonical TEN := by decide

theorem canonical_neg_TEN : canonical (neg TEN) := by decide

theorem value_TEN : value TEN = 10 := by decide

theorem value_neg_TEN : value (neg TEN) = -10 := by decide

theorem neg_number (a : big_integer) : (neg a).number = a.number := by
  unfold neg; split <;> rfl

theorem lt_eq_false_of_not {a b : big_integer} (ha : canonical a) (hb : canonical b)
    (h : ¬ value a < value b) : lt a b = false := by
  cases hl : lt a b
  · rfl
  · exact absurd ((lt_spec ha hb).mp hl) h

theorem canonical_small {a : big_integer} (ha : canonical a) (h : mag a.number < BASE) :
    a.number = [mag a.number] := by
  have hl : a.number.length = 1 := by
    by_cases hz : a = ZERO
    · rw [hz]; rfl
    · have h1 := canonical_mag_ge ha hz
      have h2 := canonical_length_pos ha
      by_contra hc
      have : BASE ^ 1 ≤ BASE ^ (a.number.length - 1) :=
        Nat.pow_le_pow_right BASE_pos (by omega)
      rw [pow_one] at this
      omega
  rcases hn : a.number with _ | ⟨x, xs⟩
  · rw [hn] at hl; simp at hl
  · rw [hn] at hl
    have : xs = [] := by
      cases xs with
      | nil => rfl
      | cons y ys => simp at hl
    subst this
    simp

theorem div_mod_ten_nonneg {a : big_integer} (ha : canonical a) (hz : a ≠ ZERO)
    (hs : a.sign = false) (fuel : Nat) :
    ∃ q m, div_mod (fuel + 1) a TEN = .val (q, m) ∧ canonical q ∧
      q.sign = false ∧ mag q.number = mag a.number / 10 ∧
      m.number.headD 0 = mag a.number % 10 := by
  have he : eq a ZERO = false := (eq_false_iff a ZERO).mpr hz
  have va := value_of_nonneg hs
  by_cases hsmall : mag a.number < 10
  · have hlt : lt a TEN = true := by
      rw [lt_spec ha canonical_TEN, va, value_TEN]; exact_mod_cast hsmall
    have hcond : (eq a ZERO || (lt a TEN && !a.sign) || (gt a TEN && a.sign)) = true := by
      simp [hlt, hs]
    rw [div_mod, hcond]
    simp only [if_true]
    have hn := canonical_small ha (by unfold BASE; omega)
    refine ⟨of_int 0, a, rfl, by rw [of_int_zero]; exact canonical_ZERO, rfl, ?_, ?_⟩
    · rw [of_int_zero, mag_ZERO, Nat.div_eq_of_lt hsmall]
    · rw [Nat.mod_eq_of_lt hsmall, hn]; simp
  · have hlt : lt a TEN = false := by
      apply lt_eq_false_of_not ha canonical_TEN
      rw [va, value_TEN]; omega
    have hcond : (eq a ZERO || (lt a TEN && !a.sign) || (gt a TEN && a.sign)) = false := by
      simp [hlt, hs, he]
    have hsign : (a.sign != TEN.sign) = false := by simp [hs, TEN]
    have hlen : TEN.number.length = 1 := rfl
    rw [div_mod, hcond, hsign]
    simp only [Bool.false_eq_true, if_false, hlen, if_true]
    obtain ⟨q, m, e, c1, c2, c3, c4⟩ := divide_long_short_spec { a with sign := false } 10
      (by omega) (by decide) ha.1
    refine ⟨q, m, e, c1, ?_, c2, ?_⟩
    · cases h : q.sign
      · rfl
      · exact absurd (c3 h) (by simp)
    · rw [c4]; rfl

theorem div_mod_ten {a : big_integer} (ha : canonical a) (hz : a ≠ ZERO) (fuel : Nat) :
    ∃ q m, div_mod (fuel + 2) a TEN = .val (q, m) ∧ canonical q ∧
      mag q.number = mag a.number / 10 ∧ m.number.headD 0 = mag a.number % 10 := by
  cases hs : a.sign
  · obtain ⟨q, m, e, c1, _, c3, c4⟩ := div_mod_ten_nonneg ha hz hs (fuel + 1)
    exact ⟨q, m, e, c1, c3, c4⟩
  · have he : eq a ZERO = false := (eq_false_iff a ZERO).mpr hz
    have va := value_of_neg hs
    have hpos := canonical_mag_pos ha hz
    have hgt : lt TEN a = false := by
      apply lt_eq_false_of_not canonical_TEN ha
      rw [va, value_TEN]; omega
    have hcond : (eq a ZERO || (lt a TEN && !a.sign) || (gt a TEN && a.sign)) = false := by
      simp [gt, hgt, hs, he]
    have hsign : (a.sign != TEN.sign) = true := by simp [hs, TEN]
    rw [div_mod, hcond, hsign]
    simp only [Bool.false_eq_true, if_false, if_true]
    by_cases hsmall : mag a.number < 10
    · have hlt : lt (neg TEN) a = true := by
        rw [lt_spec canonical_neg_TEN ha, va, value_neg_TEN]; omega
      have hcond2 : (eq a ZERO || (lt a (neg TEN) && !a.sign) || (gt a (neg TEN) && a.sign))
          = true := by
        simp [gt, hlt, hs]
      rw [div_mod, hcond2]
      simp only [if_true, Res.bind]
      have hn := canonical_small ha (by unfold BASE; omega)
      refine ⟨_, _, rfl, by rw [of_int_zero, neg_ZERO]; exact canonical_ZERO, ?_, ?_⟩
      · rw [of_int_zero, neg_ZERO, mag_ZERO, Nat.div_eq_of_lt hsmall]
      · have : ∀ (c : Bool), (if c = true then ({ a with sign := true } : big_integer) else a).number
            = a.number := by
          intro c; split <;> rfl
        rw [this, Nat.mod_eq_of_lt hsmall, hn]; simp
    · have hlt : lt (neg TEN) a = false := by
        apply lt_eq_false_of_not canonical_neg_TEN ha
        rw [va, value_neg_TEN]; omega
      have hcond2 : (eq a ZERO || (lt a (neg TEN) && !a.sign) || (gt a (neg TEN) && a.sign))
          = false := by
        simp [gt, hlt, hs, he]
      have hsign2 : (a.sign != (neg TEN).sign) = false := by
        rw [hs]; decide
      have hlen : (neg TEN).number.length = 1 := rfl
      rw [div_mod, hcond2, hsign2]
      simp only [Bool.false_eq_true, if_false, hlen, if_true]
      obtain ⟨q, m, e, c1, c2, _, c4⟩ := divide_long_short_spec { a with sign := false } 10
        (by omega) (by decide) ha.1
      have e' : divide_long_short { a with sign := false } ((neg TEN).number.headD 0)
          = .val (q, m) := e
      rw [e']
      simp only [Res.bind]
      refine ⟨_, _, rfl, (neg_spec c1).1, ?_, ?_⟩
      · rw [neg_number, c2]
      · have : ∀ (c : Bool), (if c = true then ({ m with sign := true } : big_integer) else m).number
            = m.number := by
          intro c; split <;> rfl
        rw [this, c4]; rfl

theorem digit_bounds (c : Char) (h : c.isDigit = true) : 48 ≤ c.toNat ∧ c.toNat ≤ 57 := by
  unfold Char.isDigit at h
  simp only [Bool.and_eq_true, decide_eq_true_eq] at h
  exact ⟨h.1, h.2⟩

theorem digit_char_roundtrip (c : Char) (h : c.isDigit = true) :
    Char.ofNat ((c.toNat - 48 + 48) % 256) = c := by
  have hb := digit_bounds c h
  have : (c.toNat - 48 + 48) % 256 = c.toNat := by omega
  rw [this, Char.ofNat_toNat]

theorem digit_ne_zero (c : Char) (h : c.isDigit = true) (hne : c ≠ '0') : 1 ≤ c.toNat - 48 := by
  have hb := digit_bounds c h
  by_contra hc
  have h48 : c.toNat = 48 := by omega
  apply hne
  rw [← Char.ofNat_toNat c, h48]

theorem of_int_digit (c : Char) (h : c.isDigit = true) :
    of_int ((c.toNat : Int) - 48) = ⟨[c.toNat - 48], false⟩ := by
  have hb := digit_bounds c h
  unfold of_int
  have h1 : ((c.toNat : Int) - 48).natAbs = c.toNat - 48 := by omega
  have h2 : (c.toNat - 48) % BASE = c.toNat - 48 := Nat.mod_eq_of_lt (by unfold BASE; omega)
  have h3 : decide ((c.toNat : Int) - 48 < 0) = false := by
    rw [decide_eq_false_iff_not]; omega
  rw [h1, h2, h3]

theorem canonical_one_limb (d : Nat) (hd : d < BASE) : canonical ⟨[d], false⟩ := by
  refine ⟨?_, by simp, ?_, fun _ => rfl⟩
  · intro x hx
    simp at hx
    rw [hx]; exact hd
  · intro h
    simp at h
    simp [h]

theorem nonneg_of_value {a : big_integer} (ha : canonical a) (h : 0 ≤ value a) :
    a.sign = false := by
  cases hs : a.sign
  · rfl
  · have := (sign_iff_value_neg ha).mp hs
    omega

theorem decimal_value_cons (c : Char) (cs : List Char) (acc : Nat) :
    decimal_value (c :: cs) acc = decimal_value cs (acc * 10 + (c.toNat - 48)) := rfl

theorem decimal_value_concat (ds : List Char) (d : Char) (acc : Nat) :
    decimal_value (ds ++ [d]) acc = decimal_value ds acc * 10 + (d.toNat - 48) := by
  simp [decimal_value, List.foldl_append]

theorem decimal_value_ge (ds : List Char) (acc : Nat) : acc ≤ decimal_value ds acc := by
  induction ds generalizing acc with
  | nil => exact le_refl _
  | cons c cs ih =>
    rw [decimal_value_cons]
    have := ih (acc * 10 + (c.toNat - 48))
    omega

theorem decimal_value_pos (ds : List Char) (hne : ds ≠ []) (hd : ∀ c ∈ ds, c.isDigit = true)
    (hh : ds.head? ≠ some '0') : 0 < decimal_value ds 0 := by
  cases ds with
  | nil => exact absurd rfl hne
  | cons c cs =>
    rw [decimal_value_cons]
    have h1 := digit_ne_zero c (hd c (List.mem_cons_self _ _)) (by
      intro h; apply hh; rw [h]; rfl)
    have := decimal_value_ge cs (0 * 10 + (c.toNat - 48))
    omega

theorem from_string_loop_spec (ds : List Char) (hd : ∀ c ∈ ds, c.isDigit = true) :
    ∀ this : big_integer, canonical this → this.sign = false →
      ∃ r, from_string_loop ds this = some r ∧ canonical r ∧ r.sign = false ∧
        mag r.number = decimal_value ds (mag this.number) := by
  induction ds with
  | nil =>
    intro this hc hs
    exact ⟨this, rfl, hc, hs, rfl⟩
  | cons c cs ih =>
    intro this hc hs
    have hcd := hd c (List.mem_cons_self _ _)
    have hb := digit_bounds c hcd
    rw [from_string_loop, hcd, of_int_digit c hcd]
    simp only [Bool.not_true, Bool.false_eq_true, if_false]
    have hdig : canonical ⟨[c.toNat - 48], false⟩ :=
      canonical_one_limb _ (by unfold BASE; omega)
    obtain ⟨m1, m2, _⟩ := mul_spec hc canonical_TEN
    obtain ⟨a1, a2⟩ := add_spec m1 hdig
    have hv : value (add (mul this TEN) ⟨[c.toNat - 48], false⟩)
        = ((mag this.number * 10 + (c.toNat - 48) : Nat) : Int) := by
      rw [a2, m2, value_of_nonneg hs, value_TEN]
      simp [value]
    have hsn := nonneg_of_value a1 (by rw [hv]; exact Int.natCast_nonneg _)
    have hm : mag (add (mul this TEN) ⟨[c.toNat - 48], false⟩).number
        = mag this.number * 10 + (c.toNat - 48) := by
      rw [value_of_nonneg hsn] at hv
      exact_mod_cast hv
    obtain ⟨r, e, r1, r2, r3⟩ := ih (fun x hx => hd x (List.mem_cons_of_mem _ hx)) _ a1 hsn
    exact ⟨r, e, r1, r2, by rw [r3, hm, decimal_value_cons]⟩

theorem ne_of_int_zero (a : big_integer) : ne a (of_int 0) = true ↔ a ≠ ZERO := by
  rw [of_int_zero, ne_iff]

theorem to_string_loop_zero (fuel n : Nat) (str : List Char) :
    to_string_loop fuel (n + 1) ZERO str = .val str := rfl

theorem to_string_loop_spec (fuel : Nat) (ds : List Char) :
    ds ≠ [] → (∀ c ∈ ds, c.isDigit = true) → ds.head? ≠ some '0' →
    ∀ (copy : big_integer) (str : List Char) (n : Nat), canonical copy →
      mag copy.number = decimal_value ds 0 → ds.length < n →
      to_string_loop (fuel + 2) n copy str = .val (str ++ ds.reverse) := by
  induction ds using List.reverseRecOn with
  | nil => intro h; exact absurd rfl h
  | append_singleton init d ih =>
    intro _ hd hh copy str n hc hm hn
    have hpos := decimal_value_pos (init ++ [d]) (by simp) hd hh
    have hz : copy ≠ ZERO := by
      intro h; rw [h, mag_ZERO] at hm; omega
    obtain ⟨n', rfl⟩ : ∃ n', n = n' + 1 := ⟨n - 1, by omega⟩
    have hdd := hd d (by simp)
    have hdb := digit_bounds d hdd
    rw [decimal_value_concat] at hm
    obtain ⟨q, m, e, q1, q2, q3⟩ := div_mod_ten hc hz fuel
    rw [to_string_loop, (ne_of_int_zero copy).mpr hz]
    simp only [if_true, mod, div, e, Res.bind]
    have hdigit : m.number.headD 0 = d.toNat - 48 := by rw [q3, hm]; omega
    rw [hdigit, digit_char_roundtrip d hdd]
    have hq : mag q.number = decimal_value init 0 := by rw [q2, hm]; omega
    by_cases hin : init = []
    · subst hin
      have : q = ZERO := mag_eq_zero_of_canonical q1 (by rw [hq]; rfl)
      simp only [List.length_append, List.length_nil, List.length_singleton] at hn
      obtain ⟨n'', rfl⟩ : ∃ n'', n' = n'' + 1 := ⟨n' - 1, by omega⟩
      rw [this, to_string_loop_zero]
      simp
    · have hh' : init.head? ≠ some '0' := by
        intro h
        apply hh
        cases init with
        | nil => exact absurd rfl hin
        | cons x xs => simpa using h
      rw [ih hin (fun c hc' => hd c (List.mem_append_left _ hc')) hh' q (str ++ [d]) n' q1 hq
        (by simp at hn; omega)]
      simp

theorem from_string_shape (s : String) (h : valid_decimal s) :
    ∃ c0 tail, s.data = c0 :: tail ∧ ((c0 == '-' || c0 == '+') && tail.isEmpty) = false ∧
      (if (c0 == '-' || c0 == '+') = true then tail else c0 :: tail) = digits_part s.data := by
  unfold valid_decimal at h
  rcases hd : s.data with _ | ⟨c0, tail⟩
  · rw [hd] at h; exact absurd rfl h.1
  · rw [hd] at h
    refine ⟨c0, tail, rfl, ?_, ?_⟩
    · by_cases hsign : c0 = '+' ∨ c0 = '-'
      · have ht : tail ≠ [] := by
          have := h.1
          simp only [digits_part, hsign, if_true] at this
          exact this
        cases tail with
        | nil => exact absurd rfl ht
        | cons t ts => simp
      · simp only [not_or] at hsign
        simp [hsign.1, hsign.2]
    · by_cases hsign : c0 = '+' ∨ c0 = '-'
      · have hb : (c0 == '-' || c0 == '+') = true := by
          rcases hsign with h' | h' <;> simp [h']
        simp [digits_part, hsign, hb]
      · have hb : (c0 == '-' || c0 == '+') = false := by
          simp only [not_or] at hsign
          simp [hsign.1, hsign.2]
        simp [digits_part, hsign, hb]

theorem dropWhile_zero_head (l : List Char) :
    (l.dropWhile (fun c => c == '0')).head? ≠ some '0' := by
  induction l with
  | nil => simp
  | cons c cs ih =>
    by_cases h : c = '0'
    · subst h; simpa [List.dropWhile_cons] using ih
    · have : (c == '0') = false := by simpa using h
      simp only [List.dropWhile_cons, this, Bool.false_eq_true, if_false, List.head?_cons]
      intro h'
      exact h (Option.some.inj h')

/-- C7: for every valid decimal string `s` the constructor accepts `s`, and with
enough fuel `to_string` of the constructed value returns the canonical text of `s`
(leading `+` dropped, leading zeros dropped keeping one digit, an all-zero run
rendered as `0` without a sign). -/
theorem C7_decimal_round_trip (s : String) (h : valid_decimal s) :
    ∃ a, from_string s = some a ∧
      ∃ n0, ∀ fuel, n0 ≤ fuel → to_string fuel a = .val (canonical_text s) := by
  obtain ⟨c0, tail, hd, hcond, hds⟩ := from_string_shape s h
  have hdig : ∀ c ∈ (digits_part s.data).dropWhile (fun c => c == '0'), c.isDigit = true :=
    fun c hc => h.2 c ((List.dropWhile_suffix _).subset hc)
  have hhead := dropWhile_zero_head (digits_part s.data)
  unfold from_string canonical_text
  rw [hd]
  simp only [hcond, Bool.false_eq_true, if_false, hds]
  rw [← hd]
  rcases hr : (digits_part s.data).dropWhile (fun c => c == '0') with _ | ⟨r, rs⟩
  · refine ⟨ZERO, by simp, 0, fun fuel _ => ?_⟩
    simp [to_string, (eq_iff ZERO ZERO).mpr rfl]
  · rw [hr] at hdig hhead
    obtain ⟨v, e, v1, v2, v3⟩ := from_string_loop_spec (r :: rs) hdig ZERO canonical_ZERO rfl
    have hpos := decimal_value_pos (r :: rs) (by simp) hdig hhead
    rw [mag_ZERO] at v3
    have hvz : v ≠ ZERO := by
      intro hz; rw [hz, mag_ZERO] at v3; omega
    have hcan : canonical ({ v with sign := (c0 == '-') } : big_integer) := by
      refine ⟨v1.1, v1.2.1, v1.2.2.1, fun h0 => ?_⟩
      exfalso
      have h0' : v.number = [0] := h0
      rw [h0'] at v3
      simp at v3
      omega
    have haz : ({ v with sign := (c0 == '-') } : big_integer) ≠ ZERO := by
      intro hz
      have : v.number = [0] := congrArg big_integer.number hz
      rw [this] at v3
      simp at v3
      omega
    refine ⟨{ v with sign := (c0 == '-') }, by simp [e], (r :: rs).length + 2, fun fuel hf => ?_⟩
    obtain ⟨f, rfl⟩ : ∃ f, fuel = f + 2 := ⟨fuel - 2, by omega⟩
    have hloop := to_string_loop_spec f (r :: rs) (by simp) hdig hhead
      { v with sign := (c0 == '-') } [] (f + 2) hcan v3 (by omega)
    unfold to_string
    rw [(eq_false_iff _ ZERO).mpr haz, hloop]
    simp only [Bool.false_eq_true, if_false, Res.bind, List.nil_append, List.isEmpty_cons]
    rw [hd]
    by_cases hm : c0 = '-'
    · subst hm
      simp
    · have : (c0 == '-') = false := by simpa using hm
      simp [this, hm]

/-- C7 witness: the theorem applied to the string `-0042`. -/
theorem C7_decimal_round_trip_witness :
    valid_decimal "-0042" ∧
    ∃ a, from_string "-0042" = some a ∧
      ∃ n0, ∀ fuel, n0 ≤ fuel → to_string fuel a = .val (canonical_text "-0042") :=
  ⟨by decide, C7_decimal_round_trip "-0042" (by decide)⟩

/-- C11 (does not hold on the code): for `a = -1` both `a & a` and `a | a` evaluate to
`4294967295`, which `operator==` distinguishes from `a`. -/
theorem C11_idempotence_fails :
    canonical ⟨[1], true⟩ ∧
    band ⟨[1], true⟩ ⟨[1], true⟩ = .val ⟨[4294967295], false⟩ ∧
    bor ⟨[1], true⟩ ⟨[1], true⟩ = .val ⟨[4294967295], false⟩ ∧
    eq ⟨[4294967295], false⟩ ⟨[1], true⟩ = false :=
  ⟨by decide, by decide, by decide, by decide⟩

/-- The conversion `is_negate` of `-1` to one limb of two's complement: the limb is
all ones, but the sign flag has been cleared by the increment. -/
theorem is_negate_minus_one : is_negate ⟨[1], true⟩ 1 = ⟨[4294967295], false⟩ := by decide

/-- Idempotence of `&` and `|` at `-5`, where the increment keeps the sign. -/
theorem band_bor_minus_five :
    band ⟨[5], true⟩ ⟨[5], true⟩ = .val ⟨[5], true⟩ ∧
    bor ⟨[5], true⟩ ⟨[5], true⟩ = .val ⟨[5], true⟩ :=
  ⟨by decide, by decide⟩

/-- A right shift of a negative value with bits shifted out: `-5 >> 1` is `-3`, the
floor of `-5 / 2`. -/
theorem shr_minus_five : shr ⟨[5], true⟩ 1 = ⟨[3], true⟩ ∧ Int.fdiv (-5) (2 ^ 1) = -3 :=
  ⟨by decide, by decide⟩

/-- C13 (does not hold on the code): `-4 >> 1` evaluates to `-3`, while the floor of
`-4 / 2` is `-2`; `2^1` divides `4` and the result is not `value a / 2^k`. -/
theorem C13_shr_floor_fails :
    canonical ⟨[4], true⟩ ∧ value ⟨[4], true⟩ = -4 ∧
    shr ⟨[4], true⟩ 1 = ⟨[3], true⟩ ∧ value ⟨[3], true⟩ = -3 ∧
    Int.fdiv (-4) (2 ^ 1) = -2 :=
  ⟨by decide, by decide, by decide, by decide, by decide⟩

/-- C15 (does not hold on the code): for `a = -2^33`, `b = -2^32` the remainder
returned by `a % b` is the limb `0` flagged negative, which is not canonical. -/
theorem C15_negative_zero_remainder :
    canonical ⟨[0, 2], true⟩ ∧ canonical ⟨[0, 1], true⟩ ∧
    (∀ fuel, mod (fuel + 2) ⟨[0, 2], true⟩ ⟨[0, 1], true⟩ = .val ⟨[0], true⟩) ∧
    ¬ canonical ⟨[0], true⟩ :=
  ⟨by decide, by decide, fun _ => rfl, by decide⟩

set_option maxRecDepth 100000 in
/-- C17 counterexample: the product of `123456789123456789` and `987654321` is not
the value `121932631112635269150190521`. -/
theorem C17_stated_product_differs :
    from_string "123456789123456789" = some ⟨[2899336981, 28744523], false⟩ ∧
    from_string "987654321" = some ⟨[987654321], false⟩ ∧
    from_string "121932631112635269150190521"
      = some ⟨[1708960697, 762183343, 6609981], false⟩ ∧
    eq (mul ⟨[2899336981, 28744523], false⟩ ⟨[987654321], false⟩)
      ⟨[1708960697, 762183343, 6609981], false⟩ = false :=
  ⟨by decide, by decide, by decide, by decide⟩

set_option maxRecDepth 100000 in
/-- C17 (amended): the product of the values built from the texts `123456789123456789`
and `987654321` equals the value built from `121932631234567900112635269`, and
formats back to that text. -/
theorem C17_product_scenario :
    from_string "123456789123456789" = some ⟨[2899336981, 28744523], false⟩ ∧
    from_string "987654321" = some ⟨[987654321], false⟩ ∧
    from_string "121932631234567900112635269"
      = some ⟨[1491617157, 790572996, 6609981], false⟩ ∧
    eq (mul ⟨[2899336981, 28744523], false⟩ ⟨[987654321], false⟩)
      ⟨[1491617157, 790572996, 6609981], false⟩ = true ∧
    value ⟨[2899336981, 28744523], false⟩ * value ⟨[987654321], false⟩
      = 121932631234567900112635269 :=
  ⟨by decide, by decide, by decide, by decide, by decide⟩

/-- C18 (does not hold on the code): for the canonical two-limb divisor with top limb
`2^32 - 1` the 32-bit sum `top + 1` is `0`, so the factor has a zero denominator and
`div_mod` leaves defined behaviour. -/
theorem C18_factor_denominator_zero :
    canonical ⟨[0, 4294967295], false⟩ ∧
    (⟨[0, 4294967295], false⟩ : big_integer).number.length = 2 ∧
    ((⟨[0, 4294967295], false⟩ : big_integer).number.getLastD 0 + 1) % BASE = 0 ∧
    (∀ fuel, div_mod (fuel + 1) ⟨[0, 4294967295], false⟩ ⟨[0, 4294967295], false⟩
      = .div_by_zero) :=
  ⟨by decide, by decide, by decide, fun _ => rfl⟩

/-- C19 (does not hold on the code): for `a = [0, 2^31, 2^31 - 1]` and
`b = [2^32 - 1, 2^31]` (factor `1`) the trial digit is `2^32 - 1`; after the single
decrement the product `(2^32 - 2) * b` still exceeds the running remainder, and the
digit loop ends with a negative running remainder. -/
theorem C19_single_decrement_underflows :
    canonical ⟨[0, 2147483648, 2147483647], false⟩ ∧
    canonical ⟨[4294967295, 2147483648], false⟩ ∧
    lt ⟨[0, 2147483648, 2147483647], false⟩ ⟨[4294967295, 2147483648], false⟩ = false ∧
    (BASE / ((2147483648 + 1) % BASE)) % BASE = 1 ∧
    mul ⟨[0, 2147483648, 2147483647], false⟩ (of_uint 1)
      = ⟨[0, 2147483648, 2147483647], false⟩ ∧
    mul ⟨[4294967295, 2147483648], false⟩ (of_uint 1) = ⟨[4294967295, 2147483648], false⟩ ∧
    lt ⟨[0, 2147483648, 2147483647], false⟩
      (mul ⟨[4294967294], false⟩ ⟨[4294967295, 2147483648], false⟩) = true ∧
    long_loop ⟨[4294967295, 2147483648], false⟩ 2 1 1 0
        ⟨[0, 2147483648, 2147483647], false⟩ []
      = .val (⟨[2, 2147483645], true⟩, [4294967294], 1) :=
  ⟨by decide, by decide, by decide, by decide, by decide, by decide, by decide, by decide⟩

/-- C20 (does not hold on the code): for `a = b = -(2^64 - 2^32 + 1)` the limb-wise
result with the sign set is `[2^32 - 1, 0]`; `delete_zero` shortens it to one limb and
the inversion loop, still bounded by `sz = 2`, indexes past the end. -/
theorem C20_inversion_out_of_range :
    canonical ⟨[1, 4294967295], true⟩ ∧
    is_negate ⟨[1, 4294967295], true⟩ 2 = ⟨[4294967295, 0], true⟩ ∧
    (delete_zero ⟨[4294967295, 0], true⟩).number.length = 1 ∧
    invert_loop [4294967295] 2 = .out_of_range ∧
    band ⟨[1, 4294967295], true⟩ ⟨[1, 4294967295], true⟩ = .out_of_range ∧
    bor ⟨[1, 4294967295], true⟩ ⟨[1, 4294967295], true⟩ = .out_of_range ∧
    bxor ⟨[1, 4294967295], true⟩ ZERO = .out_of_range :=
  ⟨by decide, by decide, by decide, by decide, by decide, by decide, by decide⟩

theorem one_limb_shape {b : big_integer} (hb : canonical b) (h1 : mag b.number < BASE) :
    b.number.length = 1 ∧ b.number.headD 0 = mag b.number := by
  have hn := canonical_small hb h1
  constructor
  · rw [hn]; rfl
  · rw [hn]; simp

theorem div_mod_one_limb_same_sign {a b : big_integer} (ha : canonical a) (hb : canonical b)
    (hbz : b ≠ ZERO) (h1 : mag b.number < BASE) (hs : a.sign = b.sign) (fuel : Nat) :
    ∃ q m, div_mod (fuel + 1) a b = .val (q, m) ∧ canonical q ∧ q.sign = false ∧
      mag q.number = mag a.number / mag b.number := by
  have hbpos := canonical_mag_pos hb hbz
  by_cases hc : (eq a ZERO || (lt a b && !a.sign) || (gt a b && a.sign)) = true
  · rw [div_mod, hc]
    simp only [if_true]
    refine ⟨of_int 0, a, rfl, by rw [of_int_zero]; exact canonical_ZERO, rfl, ?_⟩
    rw [of_int_zero, mag_ZERO]
    symm
    apply Nat.div_eq_of_lt
    simp only [Bool.or_eq_true, Bool.and_eq_true, Bool.not_eq_true'] at hc
    rcases hc with (hz | ⟨hlt, hsa⟩) | ⟨hgt, hsa⟩
    · rw [(eq_iff a ZERO).mp hz, mag_ZERO]; exact hbpos
    · have hv := (lt_spec ha hb).mp hlt
      rw [value_of_nonneg hsa, value_of_nonneg (hs ▸ hsa)] at hv
      exact_mod_cast hv
    · have hv := (lt_spec hb ha).mp hgt
      rw [value_of_neg hsa, value_of_neg (hs ▸ hsa)] at hv
      omega
  · have hc' : (eq a ZERO || (lt a b && !a.sign) || (gt a b && a.sign)) = false := by
      simpa using hc
    have hsign : (a.sign != b.sign) = false := by simp [hs]
    obtain ⟨hl, hh⟩ := one_limb_shape hb h1
    rw [div_mod, hc', hsign]
    simp only [Bool.false_eq_true, if_false, hl, if_true, hh]
    obtain ⟨q, m, e, c1, c2, c3, _⟩ := divide_long_short_spec { a with sign := false }
      (mag b.number) hbpos h1 ha.1
    refine ⟨q, m, e, c1, ?_, c2⟩
    cases h : q.sign
    · rfl
    · exact absurd (c3 h) (by simp)

theorem div_mod_one_limb {a b : big_integer} (ha : canonical a) (hb : canonical b)
    (hbz : b ≠ ZERO) (h1 : mag b.number < BASE) (fuel : Nat) :
    ∃ q m, div_mod (fuel + 2) a b = .val (q, m) ∧ canonical q ∧
      mag q.number = mag a.number / mag b.number ∧
      (q.sign = true ↔ (a.sign ≠ b.sign ∧ mag a.number / mag b.number ≠ 0)) := by
  by_cases hs : a.sign = b.sign
  · obtain ⟨q, m, e, c1, c2, c3⟩ := div_mod_one_limb_same_sign ha hb hbz h1 hs (fuel + 1)
    refine ⟨q, m, e, c1, c3, ?_⟩
    rw [c2]
    constructor
    · intro h; exact absurd h (by simp)
    · intro h; exact absurd hs h.1
  · by_cases hza : a = ZERO
    · have hc : (eq a ZERO || (lt a b && !a.sign) || (gt a b && a.sign)) = true := by
        rw [(eq_iff a ZERO).mpr hza]; rfl
      rw [div_mod, hc]
      simp only [if_true]
      refine ⟨of_int 0, a, rfl, by rw [of_int_zero]; exact canonical_ZERO, ?_, ?_⟩
      · rw [of_int_zero, mag_ZERO, hza, mag_ZERO, Nat.zero_div]
      · rw [hza, mag_ZERO, Nat.zero_div]
        constructor
        · intro h; exact absurd h (by decide)
        · intro h; exact absurd rfl h.2
    · have he : eq a ZERO = false := (eq_false_iff a ZERO).mpr hza
      have hne : (a.sign != b.sign) = true := by simpa using hs
      have hc : (eq a ZERO || (lt a b && !a.sign) || (gt a b && a.sign)) = false := by
        have hlt : (lt a b && !a.sign) = false := by
          unfold lt
          rw [hne]
          cases a.sign <;> simp
        have hgt : (gt a b && a.sign) = false := by
          unfold gt lt
          have : (b.sign != a.sign) = true := by simpa using fun h => hs h.symm
          rw [this]
          cases hsa : a.sign
          · simp
          · cases hsb : b.sign
            · simp
            · rw [hsa, hsb] at hs; exact absurd rfl hs
        rw [he, hlt, hgt]; rfl
      have hnb := neg_spec hb
      have hnz : neg b ≠ ZERO := by
        intro h
        have : mag (neg b).number = 0 := by rw [h, mag_ZERO]
        rw [neg_number] at this
        have := canonical_mag_pos hb hbz
        omega
      have hns : a.sign = (neg b).sign := by
        rw [neg_sign hbz]
        cases hsa : a.sign <;> cases hsb : b.sign <;> simp_all
      obtain ⟨q0, m0, e, c1, c2, c3⟩ := div_mod_one_limb_same_sign ha hnb.1 hnz
        (by rw [neg_number]; exact h1) hns fuel
      rw [neg_number] at c3
      rw [div_mod, hc, hne]
      simp only [Bool.false_eq_true, if_false, if_true, e, Res.bind]
      refine ⟨_, _, rfl, (neg_spec c1).1, by rw [neg_number, c3], ?_⟩
      by_cases hq0 : q0 = ZERO
      · have : mag a.number / mag b.number = 0 := by rw [← c3, hq0, mag_ZERO]
        rw [hq0, neg_ZERO, this]
        constructor
        · intro h; exact absurd h (by decide)
        · intro h; exact absurd rfl h.2
      · rw [neg_sign hq0, c2]
        constructor
        · intro _
          refine ⟨hs, ?_⟩
          rw [← c3]
          have := canonical_mag_pos c1 hq0
          omega
        · intro _; rfl

/-- C16: for canonical `a` and canonical non-zero `b` of one limb, `a / b` returns (with
fuel at least 2) the canonical value whose magnitude is `floor(|a| / |b|)` and which
is negative exactly when the operand signs differ and that magnitude is non-zero; in
particular `(-7) / 3` is `-2`. -/
theorem C16_one_limb_quotient (a b : big_integer) (ha : canonical a) (hb : canonical b)
    (hbz : b ≠ ZERO) (h1 : mag b.number < BASE) :
    (∀ fuel, ∃ q, div (fuel + 2) a b = .val q ∧ canonical q ∧
      mag q.number = mag a.number / mag b.number ∧
      (q.sign = true ↔ (a.sign ≠ b.sign ∧ mag a.number / mag b.number ≠ 0))) ∧
    (∀ fuel, div (fuel + 2) ⟨[7], true⟩ ⟨[3], false⟩ = .val ⟨[2], true⟩) := by
  refine ⟨fun fuel => ?_, fun _ => rfl⟩
  obtain ⟨q, m, e, c1, c2, c3⟩ := div_mod_one_limb ha hb hbz h1 fuel
  refine ⟨q, ?_, c1, c2, c3⟩
  unfold div
  rw [e]
  rfl

/-- C16 witness: the theorem applied to `a = -(2^32 + 7)` and `b = -3`. -/
theorem C16_one_limb_quotient_witness :
    canonical ⟨[7, 1], true⟩ ∧ canonical ⟨[3], true⟩ ∧
    (⟨[3], true⟩ : big_integer) ≠ ZERO ∧ mag [3] < BASE ∧
    ((∀ fuel, ∃ q, div (fuel + 2) ⟨[7, 1], true⟩ ⟨[3], true⟩ = .val q ∧ canonical q ∧
      mag q.number = mag [7, 1] / mag [3] ∧
      (q.sign = true ↔ (true ≠ true ∧ mag [7, 1] / mag [3] ≠ 0))) ∧
    (∀ fuel, div (fuel + 2) ⟨[7], true⟩ ⟨[3], false⟩ = .val ⟨[2], true⟩)) :=
  ⟨by decide, by decide, by decide, by decide,
    C16_one_limb_quotient ⟨[7, 1], true⟩ ⟨[3], true⟩ (by decide) (by decide) (by decide)
      (by decide)⟩

theorem BASE_eq_pow : BASE = 2 ^ 32 := by decide

theorem shl_word (v w inner : Nat) (hw : w < BASE) (hi : inner < 32) :
    ((v * 2 ^ inner) % WORD64 + w / 2 ^ (32 - inner)) % WORD64 % BASE
      = (v * 2 ^ inner) % BASE + w / 2 ^ (32 - inner) := by
  have hB : BASE = 4294967296 := rfl
  have hW : WORD64 = 18446744073709551616 := rfl
  rw [hB] at hw ⊢
  rw [hW]
  interval_cases inner <;> norm_num <;> omega

theorem shl_split (w inner : Nat) (hi : inner < 32) :
    (w * 2 ^ inner) % BASE + BASE * (w / 2 ^ (32 - inner)) = w * 2 ^ inner := by
  have hB : BASE = 4294967296 := rfl
  rw [hB]
  interval_cases inner <;> norm_num <;> omega

theorem shr_word (v w inner : Nat) (hv : v < BASE) (hi : inner < 32) :
    2 ^ inner * ((v / 2 ^ inner + (w * 2 ^ (32 - inner)) % WORD64) % WORD64 % BASE)
      + v % 2 ^ inner = v + BASE * (w % 2 ^ inner) := by
  have hB : BASE = 4294967296 := rfl
  have hW : WORD64 = 18446744073709551616 := rfl
  rw [hB] at hv ⊢
  rw [hW]
  interval_cases inner <;> norm_num <;> omega

theorem getD_replicate_zero (n k : Nat) : (List.replicate n 0).getD k 0 = 0 := by
  by_cases hk : k < n
  · rw [List.getD_eq_getElem _ _ (by simpa using hk)]; simp
  · rw [List.getD_eq_default _ _ (by simp; omega)]

theorem bounded_replicate_zero (n : Nat) : ∀ y ∈ List.replicate n 0, y < BASE := by
  intro y hy
  rw [(List.mem_replicate.mp hy).2]; exact BASE_pos

theorem mag_set_zero (l : List Nat) (i x : Nat) (h : i < l.length) (h0 : l.getD i 0 = 0) :
    mag (l.set i x) = mag l + BASE ^ i * x := by
  have := mag_set l i x h
  rw [h0, Nat.mul_zero, Nat.add_zero] at this
  exact this

theorem shl_loop_inv (number : List Nat) (shift inner : Nat) (hb : ∀ y ∈ number, y < BASE)
    (hi : inner < 32) (k : Nat) (hk : k ≤ number.length) :
    let res0 := (List.replicate (number.length + shift + 1) 0).set shift
      (((number.getD 0 0 * 2 ^ inner) % WORD64) % BASE)
    (shl_loop number shift inner res0 k).length = number.length + shift + 1 ∧
    (∀ y ∈ shl_loop number shift inner res0 k, y < BASE) ∧
    (∀ j, shift + 1 + k ≤ j → (shl_loop number shift inner res0 k).getD j 0 = 0) ∧
    mag (shl_loop number shift inner res0 k)
      = BASE ^ shift * (2 ^ inner * mag (number.take k)
          + BASE ^ k * ((number.getD k 0 * 2 ^ inner) % BASE)) := by
  intro res0
  have hWB : BASE ∣ WORD64 := by decide
  induction k with
  | zero =>
    have hz := getD_replicate_zero (number.length + shift + 1) shift
    refine ⟨by simp [shl_loop, res0], ?_, ?_, ?_⟩
    · exact bounded_set _ _ _ (bounded_replicate_zero _) (Nat.mod_lt _ BASE_pos)
    · intro j hj
      show res0.getD j 0 = 0
      rw [getD_set_ne _ _ _ _ (by omega)]
      exact getD_replicate_zero _ _
    · show mag res0 = _
      rw [mag_set_zero _ _ _ (by simp; omega) hz, mag_replicate_zero,
        Nat.mod_mod_of_dvd _ hWB]
      simp
  | succ k ih =>
    obtain ⟨g1, g2, g3, g4⟩ := ih (by omega)
    clear ih
    have hw := getD_lt_of_bounded number hb k
    have hx : (if shift + 1 + k - shift < number.length
        then (number.getD (shift + 1 + k - shift) 0 * 2 ^ inner) % WORD64 else 0)
        = (number.getD (k + 1) 0 * 2 ^ inner) % WORD64 := by
      have e : shift + 1 + k - shift = k + 1 := by omega
      rw [e]
      split
      · rfl
      · rw [List.getD_eq_default _ _ (by omega)]; simp
    have hy : (if shift + 1 + k - shift - 1 < number.length
        then number.getD (shift + 1 + k - shift - 1) 0 / 2 ^ (32 - inner) else 0)
        = number.getD k 0 / 2 ^ (32 - inner) := by
      have e : shift + 1 + k - shift - 1 = k := by omega
      rw [e, if_pos (by omega)]
    have hstep : shl_loop number shift inner res0 (k + 1)
        = (shl_loop number shift inner res0 k).set (shift + 1 + k)
          ((number.getD (k + 1) 0 * 2 ^ inner) % BASE + number.getD k 0 / 2 ^ (32 - inner)) := by
      rw [shl_loop]
      simp only [hx, hy]
      rw [shl_word _ _ _ hw hi]
    have hlt : (number.getD (k + 1) 0 * 2 ^ inner) % BASE + number.getD k 0 / 2 ^ (32 - inner)
        < BASE := by
      rw [← shl_word _ _ _ hw hi]; exact Nat.mod_lt _ BASE_pos
    rw [hstep]
    refine ⟨by simpa using g1, bounded_set _ _ _ g2 hlt, ?_, ?_⟩
    · intro j hj
      rw [getD_set_ne _ _ _ _ (by omega)]
      exact g3 j (by omega)
    · rw [mag_set_zero _ _ _ (by rw [g1]; omega) (g3 _ (le_refl _)), g4, mag_take_succ]
      have hs := shl_split (number.getD k 0) inner hi
      have e1 : BASE ^ (shift + 1 + k) = BASE ^ shift * (BASE * BASE ^ k) := by
        rw [Nat.add_assoc, pow_add, Nat.add_comm 1 k, pow_succ]; ring
      rw [e1, pow_succ]
      generalize (number.getD (k + 1) 0 * 2 ^ inner) % BASE = lo1 at *
      generalize (number.getD k 0 * 2 ^ inner) % BASE = lo0 at *
      generalize number.getD k 0 / 2 ^ (32 - inner) = hi0 at *
      generalize number.getD k 0 = w at *
      generalize mag (number.take k) = M at *
      generalize BASE ^ shift = S at *
      generalize BASE ^ k = P at *
      generalize 2 ^ inner = p at *
      zify at hs ⊢
      linear_combination ((S : Int) * P) * hs

theorem pow_two_split (k : Nat) : 2 ^ k = BASE ^ (k / 32) * 2 ^ (k % 32) := by
  rw [BASE_eq_pow, ← pow_mul, ← pow_add, Nat.div_add_mod]

theorem delete_zero_sign_cases (a : big_integer) :
    (delete_zero a).sign = false ∨ (delete_zero a).sign = a.sign := by
  unfold delete_zero
  simp only
  split
  · exact Or.inl rfl
  · exact Or.inr rfl

theorem shl_spec {a : big_integer} (ha : canonical a) (k : Nat) :
    canonical (shl a k) ∧ mag (shl a k).number = mag a.number * 2 ^ k ∧
      (shl a k).sign = a.sign := by
  by_cases hk : k = 0
  · subst hk
    have h0 : shl a 0 = a := by simp [shl]
    rw [h0]
    exact ⟨ha, by simp, rfl⟩
  · have hi : k % 32 < 32 := Nat.mod_lt _ (by decide)
    obtain ⟨g1, g2, _, g4⟩ := shl_loop_inv a.number (k / 32) (k % 32) ha.1 hi a.number.length
      (le_refl _)
    have hcnt : a.number.length + k / 32 + 1 - (k / 32 + 1) = a.number.length := by omega
    have hshl : shl a k = delete_zero ⟨shl_loop a.number (k / 32) (k % 32)
        ((List.replicate (a.number.length + k / 32 + 1) 0).set (k / 32)
          (((a.number.getD 0 0 * 2 ^ (k % 32)) % WORD64) % BASE)) a.number.length, a.sign⟩ := by
      unfold shl
      rw [if_neg hk]
      simp only [hcnt]
    have hmag : mag (shl a k).number = mag a.number * 2 ^ k := by
      rw [hshl, mag_delete_zero]
      simp only
      rw [g4, List.take_of_length_le (le_refl _), List.getD_eq_default _ _ (le_refl _),
        pow_two_split k]
      simp only [Nat.zero_mul, Nat.zero_mod, Nat.mul_zero, Nat.add_zero]
      ring
    refine ⟨by rw [hshl]; exact delete_zero_canonical _ g2, hmag, ?_⟩
    by_cases hz : a = ZERO
    · rcases delete_zero_sign_cases ⟨shl_loop a.number (k / 32) (k % 32)
        ((List.replicate (a.number.length + k / 32 + 1) 0).set (k / 32)
          (((a.number.getD 0 0 * 2 ^ (k % 32)) % WORD64) % BASE)) a.number.length, a.sign⟩
        with h | h
      · rw [hshl, h, hz]; rfl
      · rw [hshl, h]
    · rw [hshl]
      apply delete_zero_sign
      rw [hshl, mag_delete_zero] at hmag
      rw [hmag]
      have := canonical_mag_pos ha hz
      have := Nat.pow_pos (n := k) (by decide : 0 < 2)
      exact Nat.mul_ne_zero (by omega) (by omega)

theorem shl_value {a : big_integer} (ha : canonical a) (k : Nat) :
    value (shl a k) = value a * 2 ^ k := by
  obtain ⟨_, h2, h3⟩ := shl_spec ha k
  unfold value
  rw [h2, h3]
  split <;> push_cast <;> ring

set_option maxRecDepth 100000 in
/-- C12: for canonical `a` and a shift amount `k` below `2^31`, `a << k` is the
canonical representation of `value a * 2^k` and keeps the sign flag of `a`; in
particular `1 << 64` is the value of the text `18446744073709551616`. -/
theorem C12_shl_exact (a : big_integer) (k : Nat) (ha : canonical a) (hk : k < 2 ^ 31) :
    canonical (shl a k) ∧ value (shl a k) = value a * 2 ^ k ∧ (shl a k).sign = a.sign ∧
    from_string "18446744073709551616" = some (shl ONE 64) := by
  have _ := hk
  exact ⟨(shl_spec ha k).1, shl_value ha k, (shl_spec ha k).2.2, by decide⟩

/-- C12 witness: the theorem applied to `a = -(7 * 2^32 + 5)` and `k = 37`. -/
theorem C12_shl_exact_witness :
    canonical ⟨[5, 7], true⟩ ∧ 37 < 2 ^ 31 ∧
    (canonical (shl ⟨[5, 7], true⟩ 37) ∧
      value (shl ⟨[5, 7], true⟩ 37) = value ⟨[5, 7], true⟩ * 2 ^ 37 ∧
      (shl ⟨[5, 7], true⟩ 37).sign = true ∧
      from_string "18446744073709551616" = some (shl ONE 64)) :=
  ⟨by decide, by decide, C12_shl_exact ⟨[5, 7], true⟩ 37 (by decide) (by decide)⟩

theorem getD_drop (l : List Nat) (s i : Nat) : (l.drop s).getD i 0 = l.getD (s + i) 0 := by
  simp [List.getD_eq_getElem?_getD, List.getElem?_drop]

theorem mag_drop (l : List Nat) (hb : ∀ y ∈ l, y < BASE) (s : Nat) :
    mag (l.drop s) = mag l / BASE ^ s := by
  by_cases hs : s ≤ l.length
  · have h := mag_append (l.take s) (l.drop s)
    rw [List.take_append_drop, List.length_take, min_eq_left hs] at h
    have hlt := mag_take_lt l hb s
    rw [h, Nat.add_comm, Nat.mul_add_div (BASE_pow_pos s), Nat.div_eq_of_lt hlt, Nat.add_zero]
  · have hl : l.length ≤ s := by omega
    rw [List.drop_of_length_le hl]
    have h1 := mag_lt_pow l hb
    have h2 : BASE ^ l.length ≤ BASE ^ s := Nat.pow_le_pow_right BASE_pos hl
    rw [Nat.div_eq_of_lt (by omega)]
    rfl

theorem shr_loop_inv (number : List Nat) (shift inner : Nat) (hb : ∀ y ∈ number, y < BASE)
    (hi : inner < 32) (i : Nat) (hle : i ≤ number.length - shift) :
    let res0 := List.replicate (number.length - shift) 0
    (shr_loop number shift inner res0 i).length = number.length - shift ∧
    (∀ y ∈ shr_loop number shift inner res0 i, y < BASE) ∧
    2 ^ inner * mag ((shr_loop number shift inner res0 i).take i)
        + number.getD shift 0 % 2 ^ inner
      = mag ((number.drop shift).take i) + BASE ^ i * (number.getD (shift + i) 0 % 2 ^ inner) := by
  intro res0
  induction i with
  | zero =>
    refine ⟨by simp [shr_loop, res0], ?_, by simp⟩
    exact bounded_replicate_zero _
  | succ i ih =>
    obtain ⟨g1, g2, g3⟩ := ih (by omega)
    clear ih
    have hv := getD_lt_of_bounded number hb (shift + i)
    have hx : (if i + shift < number.length then number.getD (i + shift) 0 / 2 ^ inner else 0)
        = number.getD (shift + i) 0 / 2 ^ inner := by
      rw [if_pos (by omega), Nat.add_comm]
    have hy : (if i + shift + 1 < number.length
        then (number.getD (i + shift + 1) 0 * 2 ^ (32 - inner)) % WORD64 else 0)
        = (number.getD (shift + (i + 1)) 0 * 2 ^ (32 - inner)) % WORD64 := by
      have e : i + shift + 1 = shift + (i + 1) := by omega
      rw [e]
      split
      · rfl
      · rw [List.getD_eq_default _ _ (by omega)]; simp
    have hstep : shr_loop number shift inner res0 (i + 1)
        = (shr_loop number shift inner res0 i).set i
          ((number.getD (shift + i) 0 / 2 ^ inner
            + (number.getD (shift + (i + 1)) 0 * 2 ^ (32 - inner)) % WORD64) % WORD64 % BASE) := by
      rw [shr_loop]
      simp only [hx, hy]
    rw [hstep]
    refine ⟨by simpa using g1, bounded_set _ _ _ g2 (Nat.mod_lt _ BASE_pos), ?_⟩
    rw [mag_take_set_succ _ _ _ (by rw [g1]; omega), mag_take_succ, getD_drop]
    have hw := shr_word (number.getD (shift + i) 0) (number.getD (shift + (i + 1)) 0) inner hv hi
    rw [pow_succ]
    generalize (number.getD (shift + i) 0 / 2 ^ inner
      + (number.getD (shift + (i + 1)) 0 * 2 ^ (32 - inner)) % WORD64) % WORD64 % BASE = R at *
    generalize number.getD (shift + (i + 1)) 0 % 2 ^ inner = r1 at *
    generalize number.getD (shift + i) 0 % 2 ^ inner = r0 at *
    generalize number.getD (shift + i) 0 = v at *
    generalize number.getD shift 0 % 2 ^ inner = c at *
    generalize mag ((shr_loop number shift inner res0 i).take i) = M at *
    generalize mag ((number.drop shift).take i) = N at *
    generalize BASE ^ i = P at *
    generalize 2 ^ inner = p at *
    zify at g3 hw ⊢
    linear_combination g3 + (P : Int) * hw

theorem shr_spec_nonneg {a : big_integer} (ha : canonical a) (hs : a.sign = false) (k : Nat) :
    canonical (shr a k) ∧ (shr a k).sign = false ∧
      mag (shr a k).number = mag a.number / 2 ^ k := by
  by_cases hk : k = 0
  · subst hk
    have h0 : shr a 0 = a := by simp [shr]
    rw [h0]
    exact ⟨ha, hs, by simp⟩
  · have hi : k % 32 < 32 := Nat.mod_lt _ (by decide)
    have hp : 0 < 2 ^ (k % 32) := Nat.pow_pos (by decide)
    have hsz : (if k / 32 < a.number.length then a.number.length - k / 32 else 0)
        = a.number.length - k / 32 := by
      split <;> omega
    obtain ⟨g1, g2, g3⟩ := shr_loop_inv a.number (k / 32) (k % 32) ha.1 hi
      (a.number.length - k / 32) (le_refl _)
    have hz : a.number.getD (k / 32 + (a.number.length - k / 32)) 0 = 0 :=
      List.getD_eq_default _ _ (by omega)
    rw [List.take_of_length_le (by rw [g1]), List.take_of_length_le (by simp),
      hz, Nat.zero_mod, Nat.mul_zero, Nat.add_zero, mag_drop _ ha.1] at g3
    have hc : a.number.getD (k / 32) 0 % 2 ^ (k % 32) < 2 ^ (k % 32) := Nat.mod_lt _ hp
    have hmag : mag (shr_loop a.number (k / 32) (k % 32)
        (List.replicate (a.number.length - k / 32) 0) (a.number.length - k / 32))
        = mag a.number / 2 ^ k := by
      rw [pow_two_split k, ← Nat.div_div_eq_div_mul, ← g3, Nat.mul_add_div hp,
        Nat.div_eq_of_lt hc, Nat.add_zero]
    have hshr : shr a k = { delete_zero ⟨shr_loop a.number (k / 32) (k % 32)
        (List.replicate (a.number.length - k / 32) 0) (a.number.length - k / 32), false⟩
        with sign := false } := by
      unfold shr
      rw [if_neg hk]
      simp only [hsz, hs, Bool.false_eq_true, if_false]
    have hsign : (delete_zero ⟨shr_loop a.number (k / 32) (k % 32)
        (List.replicate (a.number.length - k / 32) 0) (a.number.length - k / 32), false⟩).sign
        = false := by
      rcases delete_zero_sign_cases ⟨shr_loop a.number (k / 32) (k % 32)
        (List.replicate (a.number.length - k / 32) 0) (a.number.length - k / 32), false⟩
        with h | h <;> exact h
    have hsame : ({ delete_zero ⟨shr_loop a.number (k / 32) (k % 32)
        (List.replicate (a.number.length - k / 32) 0) (a.number.length - k / 32), false⟩
        with sign := false } : big_integer)
        = delete_zero ⟨shr_loop a.number (k / 32) (k % 32)
        (List.replicate (a.number.length - k / 32) 0) (a.number.length - k / 32), false⟩ := by
      generalize delete_zero ⟨shr_loop a.number (k / 32) (k % 32)
        (List.replicate (a.number.length - k / 32) 0) (a.number.length - k / 32), false⟩ = t
        at hsign ⊢
      cases t
      simp_all
    rw [hshr, hsame]
    exact ⟨delete_zero_canonical _ g2, hsign, by rw [mag_delete_zero]; exact hmag⟩

/-- C14: for canonical `a >= 0` and a shift amount `k` below `2^31`, shifting left and
then right by `k` gives a value that `operator==` identifies with `a`. -/
theorem C14_shift_round_trip (a : big_integer) (k : Nat) (ha : canonical a)
    (hs : a.sign = false) (hk : k < 2 ^ 31) : eq (shr (shl a k) k) a = true := by
  have _ := hk
  obtain ⟨l1, l2, l3⟩ := shl_spec ha k
  obtain ⟨r1, r2, r3⟩ := shr_spec_nonneg l1 (l3.trans hs) k
  rw [eq_iff]
  apply canonical_ext r1 ha
  rw [value_of_nonneg r2, value_of_nonneg hs, r3, l2,
    Nat.mul_div_cancel _ (Nat.pow_pos (by decide))]

/-- C14 witness: the theorem applied to `a = 7 * 2^32 + 5` and `k = 37`. -/
theorem C14_shift_round_trip_witness :
    canonical ⟨[5, 7], false⟩ ∧ (⟨[5, 7], false⟩ : big_integer).sign = false ∧ 37 < 2 ^ 31 ∧
    eq (shr (shl ⟨[5, 7], false⟩ 37) 37) ⟨[5, 7], false⟩ = true :=
  ⟨by decide, by decide, by decide,
    C14_shift_round_trip ⟨[5, 7], false⟩ 37 (by decide) (by decide) (by decide)⟩

end big_integer
